import Mathlib

/-!
Verification of the `chatwithsite` crawl-to-retrieval pipeline.

This file gives a shallow embedding, in Lean 4, of the algorithmic core of the
repository:

* `app/crawler.py` — URL normalization (`WebsiteCrawler._normalize_url`),
  domain scoping (`_is_same_domain`), link extraction
  (`_extract_links_from_result`), the per-page step (`crawl_page`) and the
  breadth-first frontier loop (`crawl_website`), together with the parts of
  Python's `urllib.parse` (`urlsplit` / `urlparse` / `urlunparse` / `urljoin`)
  that those functions call;
* `app/vector_store.py` — the session-scoped vector-store manager
  (`load_vector_store`, `similarity_search`, `delete_session`);
* `app/chat_service.py` — the in-memory session map (`ChatManager`).

External collaborators (the `crawl4ai` page fetcher, the FAISS index and the
embedding provider, the filesystem) are modelled as explicit parameters or
abstract state, exactly at the call boundary the Python code uses.  Strings
are modelled as `List Char` inside the URL machinery (Python `str` slicing
and searching become list operations) and as Lean `String` at the API
boundary.  Python's `urllib.parse` is embedded following the CPython
implementation (3.11-era: the `\t`/`\r`/`\n` stripping, the
first-character-alphabetic scheme test, and the mismatched-IPv6-bracket
`ValueError`; the deep bracketed-host validation and the non-ASCII
`_checknetloc` check, which never fire on ASCII URLs, are not modelled).
-/

namespace PyUrl

/-- The characters CPython's `urlsplit` removes from a URL before parsing
(`_UNSAFE_URL_BYTES_TO_REMOVE = ["\t", "\r", "\n"]`). -/
def unsafeChar (c : Char) : Bool :=
  c = '\t' || c = '\r' || c = '\n'

/-- Membership in CPython's `_WHATWG_C0_CONTROL_OR_SPACE`: the C0 control
characters together with the space character. -/
def c0OrSpace (c : Char) : Bool :=
  c.val ≤ 32

/-- CPython's pre-parsing sanitization of the URL argument:
`url.lstrip(_WHATWG_C0_CONTROL_OR_SPACE)` followed by `url.replace(b, "")`
for each unsafe byte (tab, CR, LF). -/
def cleanUrl (l : List Char) : List Char :=
  (l.dropWhile c0OrSpace).filter (fun c => !unsafeChar c)

/-- CPython's sanitization of the default-scheme argument:
`scheme.strip(_WHATWG_C0_CONTROL_OR_SPACE)` followed by the unsafe-byte
removal. -/
def cleanScheme (l : List Char) : List Char :=
  (((l.dropWhile c0OrSpace).reverse.dropWhile c0OrSpace).reverse).filter
    (fun c => !unsafeChar c)

/-- CPython's `scheme_chars`: ASCII letters, digits and `+ - .`. -/
def schemeChar (c : Char) : Bool :=
  c.isAlpha || c.isDigit || c = '+' || c = '-' || c = '.'

/-- The scheme-candidate test of `urlsplit`: the text before the first `:`
must be non-empty, start with an ASCII letter, and consist of scheme
characters only. -/
def isValidScheme (pre : List Char) : Bool :=
  match pre with
  | [] => false
  | c :: _ => c.isAlpha && pre.all schemeChar

/-- `urlsplit`'s scheme extraction: `i = url.find(':')`; if `i > 0` and
`url[:i]` is a valid scheme, return (lower-cased scheme, text after the
colon), else no scheme and the input unchanged. -/
def splitScheme (l : List Char) : Option (List Char) × List Char :=
  let pre := l.takeWhile (· ≠ ':')
  if l.contains ':' && isValidScheme pre then
    (some (pre.map Char.toLower), (l.dropWhile (· ≠ ':')).tail)
  else
    (none, l)

/-- A character that may appear inside a netloc: `_splitnetloc` scans up to
the first of `/`, `?` or `#`. -/
def netlocChar (c : Char) : Bool :=
  c ≠ '/' && c ≠ '?' && c ≠ '#'

/-- `_splitnetloc(url, 2)` applied to the text after the leading `//`. -/
def splitNetloc (l : List Char) : List Char × List Char :=
  (l.takeWhile netlocChar, l.dropWhile netlocChar)

/-- `url.split(sep, 1)` guarded by `sep in url`: split at the first
occurrence of `sep`, returning the input unsplit when `sep` is absent. -/
def splitFirst (sep : Char) (l : List Char) : List Char × List Char :=
  if l.contains sep then
    (l.takeWhile (· ≠ sep), (l.dropWhile (· ≠ sep)).tail)
  else
    (l, [])

/-- The result of `urlsplit`: `SplitResult(scheme, netloc, path, query,
fragment)`. -/
structure SplitResult where
  scheme : List Char
  netloc : List Char
  path : List Char
  query : List Char
  fragment : List Char
  deriving Repr, DecidableEq

/-- CPython `urllib.parse.urlsplit(url, scheme=default)`.  Returns
`Except.error ()` where CPython raises `ValueError` (mismatched IPv6
brackets in the netloc). -/
def urlsplit (dflt : List Char) (url : List Char) : Except Unit SplitResult :=
  let l := cleanUrl url
  let p1 := splitScheme l
  let scheme := p1.1.getD (cleanScheme dflt)
  let p2 :=
    if p1.2.take 2 = ['/', '/'] then splitNetloc (p1.2.drop 2)
    else ([], p1.2)
  if (p2.1.contains '[' && !p2.1.contains ']')
      || (p2.1.contains ']' && !p2.1.contains '[') then
    .error ()
  else
    let p3 := splitFirst '#' p2.2
    let p4 := splitFirst '?' p3.1
    .ok ⟨scheme, p2.1, p4.1, p4.2, p3.2⟩

/-- The result of `urlparse`: `ParseResult(scheme, netloc, path, params,
query, fragment)`. -/
structure ParseResult where
  scheme : List Char
  netloc : List Char
  path : List Char
  params : List Char
  query : List Char
  fragment : List Char
  deriving Repr, DecidableEq

/-- CPython `_splitparams(url)`: split the parameters off the last path
segment.  (Only reachable from `urlparse` when `';' in url`.) -/
def splitparams (l : List Char) : List Char × List Char :=
  if l.contains '/' then
    -- i = url.find(';', url.rfind('/')): first ';' in the last segment
    let pre := (l.reverse.dropWhile (· ≠ '/')).reverse   -- up to and including last '/'
    let lastSeg := (l.reverse.takeWhile (· ≠ '/')).reverse
    if lastSeg.contains ';' then
      (pre ++ lastSeg.takeWhile (· ≠ ';'), (lastSeg.dropWhile (· ≠ ';')).tail)
    else
      (l, [])
  else
    if l.contains ';' then
      (l.takeWhile (· ≠ ';'), (l.dropWhile (· ≠ ';')).tail)
    else
      -- url.find(';') == -1: CPython returns (url[:-1], url[0:])
      (l.dropLast, l)

/-- CPython `urllib.parse.urlparse(url, scheme=default)`. -/
def urlparse (dflt : List Char) (url : List Char) : Except Unit ParseResult := do
  let sp ← urlsplit dflt url
  let pp := if sp.path.contains ';' then splitparams sp.path else (sp.path, [])
  .ok ⟨sp.scheme, sp.netloc, pp.1, pp.2, sp.query, sp.fragment⟩

/-- CPython `urlunsplit((scheme, netloc, url, query, fragment))`. -/
def urlunsplit (scheme netloc path query fragment : List Char) : List Char :=
  let url := path
  let url :=
    if netloc ≠ [] ∨ (url ≠ [] ∧ url.take 2 = ['/', '/']) then
      let url := if url ≠ [] ∧ url.take 1 ≠ ['/'] then '/' :: url else url
      ['/', '/'] ++ netloc ++ url
    else url
  let url := if scheme ≠ [] then scheme ++ ':' :: url else url
  let url := if query ≠ [] then url ++ '?' :: query else url
  if fragment ≠ [] then url ++ '#' :: fragment else url

/-- CPython `urlunparse`: re-attach the params, then `urlunsplit`. -/
def urlunparse (p : ParseResult) : List Char :=
  let path := if p.params ≠ [] then p.path ++ ';' :: p.params else p.path
  urlunsplit p.scheme p.netloc path p.query p.fragment

/-- CPython `uses_relative`. -/
def usesRelative : List (List Char) :=
  ["", "ftp", "http", "gopher", "nntp", "imap", "wais", "file", "https",
   "shttp", "mms", "prospero", "rtsp", "rtspu", "sftp", "svn", "svn+ssh",
   "ws", "wss"].map String.data

/-- CPython `uses_netloc`. -/
def usesNetloc : List (List Char) :=
  ["", "ftp", "http", "gopher", "nntp", "telnet", "imap", "wais", "file",
   "mms", "https", "shttp", "snews", "prospero", "rtsp", "rtspu", "rsync",
   "svn", "svn+ssh", "sftp", "nfs", "git", "git+ssh", "ws", "wss"].map
    String.data

/-- `segments[1:-1] = filter(None, segments[1:-1])`: drop empty segments,
keeping the first and last segment untouched. -/
def filterMiddle : List (List Char) → List (List Char)
  | [] => []
  | [a] => [a]
  | a :: b :: rest =>
    a :: ((b :: rest).dropLast.filter (fun s => !s.isEmpty)
          ++ [(b :: rest).getLastD []])

/-- The `..` / `.` resolution loop of `urljoin`, including the trailing
empty-segment fix-up when the final segment is `.` or `..`. -/
def resolveSegments (segs : List (List Char)) : List (List Char) :=
  let r := segs.foldl
    (fun acc seg =>
      if seg = ['.', '.'] then acc.dropLast
      else if seg = ['.'] then acc
      else acc ++ [seg]) []
  match segs.getLast? with
  | some s => if s = ['.'] ∨ s = ['.', '.'] then r ++ [[]] else r
  | none => r

/-- CPython `urllib.parse.urljoin(base, url)`.  Propagates the `ValueError`
of the two inner `urlparse` calls as `Except.error ()`. -/
def urljoin (base url : String) : Except Unit String :=
  if base = "" then .ok url
  else if url = "" then .ok base
  else do
    let b ← urlparse [] base.data
    let u ← urlparse b.scheme url.data
    if u.scheme ≠ b.scheme ∨ u.scheme ∉ usesRelative then
      .ok url
    else
      if u.scheme ∈ usesNetloc ∧ u.netloc ≠ [] then
        .ok (String.mk (urlunparse u))
      else
        let netloc := if u.scheme ∈ usesNetloc then b.netloc else u.netloc
        if u.path = [] ∧ u.params = [] then
          let query := if u.query = [] then b.query else u.query
          .ok (String.mk (urlunparse
            ⟨u.scheme, netloc, b.path, b.params, query, u.fragment⟩))
        else
          let baseParts := b.path.splitOn '/'
          let baseParts :=
            if baseParts.getLastD [] ≠ [] then baseParts.dropLast
            else baseParts
          let segments :=
            if u.path.take 1 = ['/'] then u.path.splitOn '/'
            else filterMiddle (baseParts ++ u.path.splitOn '/')
          -- "'/'.join(resolved_path) or '/'"
          let joined := List.intercalate ['/'] (resolveSegments segments)
          .ok (String.mk (urlunparse
            ⟨u.scheme, netloc, if joined = [] then ['/'] else joined,
             u.params, u.query, u.fragment⟩))

end PyUrl

/-! ## `app/crawler.py` — the `WebsiteCrawler` -/

namespace WebsiteCrawler

/-- A runtime Python value, as far as `_extract_links_from_result` inspects
one: a string, a dict (assoc list in insertion order; Python dict keys are
unique), a list, `None`, or some other object carrying only its
truthiness. -/
inductive PyVal where
  | pstr : String → PyVal
  | pdict : List (String × PyVal) → PyVal
  | plist : List PyVal → PyVal
  | pnone : PyVal
  | pother : Bool → PyVal

/-- Python truthiness for the shapes of `PyVal` (`if not result.links`). -/
def PyVal.truthy : PyVal → Bool
  | .pstr s => s ≠ ""
  | .pdict kvs => !kvs.isEmpty
  | .plist xs => !xs.isEmpty
  | .pnone => false
  | .pother b => b

/-- The inner loop shared by all three branches of
`_extract_links_from_result`: each entry that is a dict with an `'href'`
key contributes its `'href'` value, each entry that is a string contributes
itself, everything else is skipped. -/
def collectLinks (acc : List PyVal) (ll : List PyVal) : List PyVal :=
  ll.foldl
    (fun a link =>
      match link with
      | .pdict fields =>
        match fields.lookup "href" with
        | some v => a ++ [v]
        | none => a
      | .pstr s => a ++ [.pstr s]
      | _ => a) acc

/-- `WebsiteCrawler._extract_links_from_result` (crawler.py lines 47-88),
applied to `result.links`.  The dict branch first takes the `'internal'`
category (when it maps to a list), then every other category in insertion
order whose value is a list; a flat list is scanned directly; anything else
yields no links.  (Python appends `link['href']` whatever its type, so the
output is a list of `PyVal`; non-string entries are later rejected by the
caller when `urljoin` raises on them.) -/
def extract_links_from_result (links : PyVal) : List PyVal :=
  if !links.truthy then []
  else
    match links with
    | .pdict kvs =>
      let withInternal :=
        match kvs.lookup "internal" with
        | some (.plist ll) => collectLinks [] ll
        | _ => []
      kvs.foldl
        (fun a kv =>
          match kv.2 with
          | .plist ll => if kv.1 ≠ "internal" then collectLinks a ll else a
          | _ => a) withInternal
    | .plist xs => collectLinks [] xs
    | _ => []

/-- `WebsiteCrawler._normalize_url` (crawler.py lines 34-45):
`f"{parsed.scheme}://{parsed.netloc}{parsed.path}"`, with one trailing
slash removed when `len(parsed.path) > 1`; a URL on which `urlparse`
raises is returned unchanged. -/
def normalize_url (url : String) : String :=
  match PyUrl.urlparse [] url.data with
  | .error _ => url
  | .ok p =>
    let normalized := p.scheme ++ [':', '/', '/'] ++ p.netloc ++ p.path
    if normalized.getLast? = some '/' ∧ p.path.length > 1 then
      String.mk normalized.dropLast
    else
      String.mk normalized

/-- `WebsiteCrawler._is_same_domain` (crawler.py lines 27-32):
`urlparse(url).netloc == self.base_domain`, `False` when `urlparse`
raises. -/
def is_same_domain (base_domain : List Char) (url : String) : Bool :=
  match PyUrl.urlparse [] url.data with
  | .ok p => p.netloc = base_domain
  | .error _ => false

/-- The crawl budget fixed in `WebsiteCrawler.__init__`. -/
structure Config where
  base_url : String
  max_depth : Nat
  max_pages : Nat

/-- `self.base_domain = urlparse(base_url).netloc`.  (A base URL on which
`urlparse` raises would abort `__init__`; the model returns `[]` there and
is only meaningful for base URLs that parse.) -/
def Config.base_domain (cfg : Config) : List Char :=
  match PyUrl.urlparse [] cfg.base_url.data with
  | .ok p => p.netloc
  | .error _ => []

/-- One page record, `{'url', 'content', 'title', 'depth'}`
(crawler.py lines 123-128). -/
structure PageRecord where
  url : String
  content : String
  title : String
  depth : Nat
  deriving Repr, DecidableEq

/-- The observable shape of a `crawl4ai` fetch result, at the boundary
`crawl_page` uses: `result.success`, `result.url`, `result.markdown`
(truthy iff non-empty; `None` collapses to `""`), the `'title'` entry of
`result.metadata` (`none` models both a missing key and a `None`
metadata dict, which the code turns into `''`), and `result.links`. -/
structure FetchResult where
  success : Bool
  url : String
  markdown : String
  title : Option String
  links : PyVal

/-- A page fetcher: the external `crawler.arun` collaborator.
`Except.error ()` models `arun` raising, which `crawl_page` catches. -/
def Fetcher : Type := String → Except Unit FetchResult

/-- The mutable crawler state: `self.visited_urls` (a set, modelled as a
duplicate-free list in insertion order), `self.crawled_data`,
`self.indexed_count`, plus `fetch_log`, which instruments the calls to the
external fetcher (one entry per `crawler.arun` invocation, recording the
URL passed to it). -/
structure CrawlerState where
  visited : List String
  crawled_data : List PageRecord
  indexed_count : Nat
  fetch_log : List String
  deriving Repr, DecidableEq

/-- The state at the start of `crawl_website`. -/
def initialState : CrawlerState :=
  ⟨[], [], 0, []⟩

/-- The body of the `for link in raw_links` filter loop of `crawl_page`
(crawler.py lines 138-153): resolve the link against the page URL
(`urljoin` raising — e.g. on a non-string `link['href']` value — is caught
and skips the link), keep it only when it is same-domain and its
normalization is not in `visited` at the time the loop runs. -/
def link_filter_step (cfg : Config) (url : String) (vis : List String)
    (acc : List String) (link : PyVal) : List String :=
  match link with
  | .pstr s =>
    match PyUrl.urljoin url s with
    | .ok absolute_url =>
      if is_same_domain cfg.base_domain absolute_url then
        if normalize_url absolute_url ∈ vis then acc
        else acc ++ [absolute_url]
      else acc
    | .error _ => acc
  | _ => acc

/-- `WebsiteCrawler.crawl_page` (crawler.py lines 90-161).  Returns the
updated state and the discovered internal links.  The guards, the
mark-before-fetch `visited_urls.add`, the swallowed fetch exception, the
success-and-non-empty-markdown test, and the per-link
`urljoin`/same-domain/unvisited filter follow the source line by line. -/
def crawl_page (fetch : Fetcher) (cfg : Config) (st : CrawlerState)
    (url : String) (depth : Nat) : CrawlerState × List String :=
  if depth > cfg.max_depth ∨ st.visited.length ≥ cfg.max_pages then (st, [])
  else
    let normalized := normalize_url url
    if normalized ∈ st.visited then (st, [])
    else
      let st1 : CrawlerState :=
        { st with visited := st.visited ++ [normalized],
                  fetch_log := st.fetch_log ++ [url] }
      match fetch url with
      | .error _ => (st1, [])
      | .ok result =>
        if result.success = true ∧ result.markdown ≠ "" then
          let record : PageRecord :=
            { url := result.url, content := result.markdown,
              title := result.title.getD "", depth := depth }
          let st2 : CrawlerState :=
            { st1 with crawled_data := st1.crawled_data ++ [record],
                       indexed_count := st1.indexed_count + 1 }
          let internal_links :=
            (extract_links_from_result result.links).foldl
              (link_filter_step cfg url st1.visited) []
          (st2, internal_links)
        else (st1, [])

/-- The `while urls_to_crawl and len(self.visited_urls) < self.max_pages`
loop of `WebsiteCrawler.crawl_website` (crawler.py lines 179-197): dequeue
the head entry, skip entries beyond `max_depth`, crawl the page, and append
each discovered link at the tail with depth + 1 while the page budget is
not reached.  Terminates because every iteration either consumes one queue
entry without changing the state or strictly grows the visited set, which
is bounded by `max_pages`. -/
def crawl_website_loop (fetch : Fetcher) (cfg : Config)
    (q : List (String × Nat)) (st : CrawlerState) : CrawlerState :=
  match q with
  | [] => st
  | (url, depth) :: rest =>
    if _h1 : st.visited.length ≥ cfg.max_pages then st
    else if depth > cfg.max_depth then
      crawl_website_loop fetch cfg rest st
    else
      let pr := crawl_page fetch cfg st url depth
      let q' :=
        if pr.1.visited.length < cfg.max_pages then
          rest ++ pr.2.map (fun l => (l, depth + 1))
        else rest
      crawl_website_loop fetch cfg q' pr.1
termination_by (cfg.max_pages - st.visited.length, q.length)
decreasing_by
  · apply Prod.Lex.right
    simp
  · have hcp : crawl_page fetch cfg st url depth = (st, []) ∨
        (crawl_page fetch cfg st url depth).1.visited.length
          = st.visited.length + 1 := by
      unfold crawl_page
      split
      · exact Or.inl rfl
      · by_cases hmem : normalize_url url ∈ st.visited
        · left; simp [hmem]
        · right
          simp only [hmem, if_false]
          cases fetch url with
          | error e => simp
          | ok r =>
            by_cases hs : r.success = true ∧ r.markdown ≠ ""
            · simp [hs]
            · simp [hs]
    rcases hcp with h | h
    · rw [h]
      simp only [List.map_nil, List.append_nil, ite_self]
      apply Prod.Lex.right
      simp
    · rw [h]
      apply Prod.Lex.left
      omega

/-- The dict `crawl_website` returns (crawler.py lines 204-209). -/
structure CrawlResult where
  data : List PageRecord
  indexed_count : Nat
  visited_count : Nat
  urls_visited : List String
  deriving Repr, DecidableEq

/-- The `max([data['depth'] for data in self.crawled_data]) if
self.crawled_data else 0` statistic computed at termination
(crawler.py line 202). -/
def max_depth_reached (data : List PageRecord) : Nat :=
  if data.isEmpty then 0
  else (data.map PageRecord.depth).foldl Nat.max 0

/-- The final crawler state of one run of `WebsiteCrawler.crawl_website`:
the loop started on the queue `[(self.base_url, 0)]` from the initial
state. -/
def crawl_website_final (fetch : Fetcher) (cfg : Config) : CrawlerState :=
  crawl_website_loop fetch cfg [(cfg.base_url, 0)] initialState

/-- `WebsiteCrawler.crawl_website` (crawler.py lines 163-209): run the
frontier loop and return `{'data', 'indexed_count', 'visited_count',
'urls_visited'}`.  (`list(self.visited_urls)` enumerates a Python set whose
order is unspecified; the model fixes insertion order.) -/
def crawl_website (fetch : Fetcher) (cfg : Config) : CrawlResult :=
  let final := crawl_website_final fetch cfg
  { data := final.crawled_data,
    indexed_count := final.indexed_count,
    visited_count := final.visited.length,
    urls_visited := final.visited }

end WebsiteCrawler

/-! ## `app/vector_store.py` and `app/chat_service.py` -/

namespace VectorStore

/-- A chunk document as stored in the index (langchain `Document`:
page content plus source metadata). -/
structure Document where
  page_content : String
  url : String
  title : String
  depth : Nat
  deriving Repr, DecidableEq

/-- An in-memory FAISS index handle, abstracted to the chunk documents it
carries; nearest-neighbour ranking is an external collaborator. -/
structure FaissIndex where
  docs : List Document
  deriving Repr, DecidableEq

/-- The ranking collaborator: `FAISS.similarity_search(query, k)` on a
loaded index. -/
def SearchFn : Type := FaissIndex → String → Nat → List Document

/-- The on-disk storage, at the granularity `vector_store.py` uses it: for
each session id, either a persisted index at
`STORAGE_DIR/<session_id>/faiss_index` or nothing. -/
def Disk : Type := String → Option FaissIndex

/-- The mutable state of one `VectorStoreManager`. -/
structure VSMState where
  session_id : String
  vector_store : Option FaissIndex
  deriving Repr, DecidableEq

/-- `VectorStoreManager.load_vector_store` (vector_store.py lines 57-71):
returns `True` and attaches the index when one exists on disk for this
session, `False` otherwise (a missing path and a failed
`FAISS.load_local` both yield `False` with the state unchanged). -/
def load_vector_store (disk : Disk) (st : VSMState) : Bool × VSMState :=
  match disk st.session_id with
  | some idx => (true, { st with vector_store := some idx })
  | none => (false, st)

/-- `VectorStoreManager.similarity_search` (vector_store.py lines 79-86):
search the in-memory index if attached, otherwise try to load it from
disk; raise `ValueError` (modelled as `Except.error` with the message)
when neither exists.  (`Option.getD` is only evaluated in the branch where
`load_vector_store` returned `True`, which forces the store to be
attached.) -/
def similarity_search (search_fn : SearchFn) (disk : Disk) (st : VSMState)
    (query : String) (k : Nat) :
    Except String (List Document) × VSMState :=
  match st.vector_store with
  | some vs => (.ok (search_fn vs query k), st)
  | none =>
    let p := load_vector_store disk st
    if p.1 then
      (.ok (search_fn (p.2.vector_store.getD ⟨[]⟩) query k), p.2)
    else
      (.error ("No vector store found for session " ++ st.session_id), p.2)

/-- The on-disk session directories, as a duplicate-free list of session
ids that currently have a directory under `STORAGE_DIR`. -/
structure SessionDirs where
  dirs : List String
  deriving Repr, DecidableEq

/-- `VectorStoreManager.delete_session` (vector_store.py lines 88-96):
`shutil.rmtree(self.session_path)` guarded by `self.session_path.exists()`
(exceptions are swallowed; the in-memory `vector_store` attribute is not
touched). -/
def delete_session_disk (sid : String) (fs : SessionDirs) : SessionDirs :=
  if sid ∈ fs.dirs then ⟨fs.dirs.erase sid⟩ else fs

end VectorStore

namespace ChatService

open VectorStore

/-- The `ChatManager` state: `self.sessions`, a dict from session id to a
live `ChatSession` (which owns a `VectorStoreManager` and, through it, any
loaded in-memory index).  For the session lifecycle only the key set
matters; it is modelled as a duplicate-free list of ids in insertion
order. -/
structure ChatManagerState where
  sessions : List String
  deriving Repr, DecidableEq

/-- `ChatManager.delete_session` (chat_service.py lines 82-88): when the
id is a key of `self.sessions`, delete the session's on-disk data via
`VectorStoreManager.delete_session` and drop the in-memory entry;
otherwise do nothing. -/
def delete_session (sid : String) (st : ChatManagerState) (fs : SessionDirs) :
    ChatManagerState × SessionDirs :=
  if sid ∈ st.sessions then
    (⟨st.sessions.erase sid⟩, delete_session_disk sid fs)
  else
    (st, fs)

end ChatService

/-! ## Specification-side definitions and concrete test fixtures -/

namespace WebsiteCrawler

/-- Spec 4.2's view of one link entry: a bare string stands for itself, a
record carrying an `href` field stands for that field's value, anything
else is unrecognized.  (Written from the spec's words, as the adapter
against which `extract_links_from_result` is compared.) -/
def recognizedEntry : PyVal → Option PyVal
  | .pstr s => some (.pstr s)
  | .pdict fields => fields.lookup "href"
  | _ => none

/-- Spec 4.2's expected extractor output: absent link data yields an empty
sequence; a flat list yields its recognized entries in order; a
categorized mapping yields the recognized entries of the `internal`
category first, then of every other list-valued category in insertion
order; anything else yields nothing.  (Written from the spec's words.) -/
def expectedLinks : PyVal → List PyVal
  | .plist xs => xs.filterMap recognizedEntry
  | .pdict kvs =>
    (match kvs.lookup "internal" with
     | some (.plist ll) => ll.filterMap recognizedEntry
     | _ => []) ++
    kvs.foldl
      (fun a kv =>
        match kv.2 with
        | .plist ll =>
          if kv.1 ≠ "internal" then a ++ ll.filterMap recognizedEntry else a
        | _ => a) []
  | _ => []

/-- The invariant maintained by `crawl_page` over one crawl run: the
visited set is duplicate-free and within the page budget, it is exactly
the image of the fetch log under normalization (mark-before-fetch),
`indexed_count` counts the page records, at most one record exists per
visited URL, and every record's depth is within `max_depth`. -/
def StInv (cfg : Config) (st : CrawlerState) : Prop :=
  st.visited.Nodup ∧
  st.visited.length ≤ cfg.max_pages ∧
  st.visited = st.fetch_log.map normalize_url ∧
  st.indexed_count = st.crawled_data.length ∧
  st.crawled_data.length ≤ st.visited.length ∧
  ∀ r ∈ st.crawled_data, r.depth ≤ cfg.max_depth

/-- `url` parses and has both a scheme and a host component. -/
def hasSchemeAndHost (url : String) : Bool :=
  match PyUrl.urlparse [] url.data with
  | .ok p => !p.scheme.isEmpty && !p.netloc.isEmpty
  | .error _ => false

/-- Page A of the three-page demo site of spec §8. -/
def urlA : String := "https://site.test/a"

/-- Page B of the three-page demo site. -/
def urlB : String := "https://site.test/b"

/-- Page C of the three-page demo site. -/
def urlC : String := "https://site.test/c"

/-- The fetcher for the three-page demo site: A links to B and C, B links
to C, C has no links; every other URL fails to fetch. -/
def demo_fetch : Fetcher := fun u =>
  if u = urlA then
    .ok ⟨true, urlA, "content A", some "A", .plist [.pstr urlB, .pstr urlC]⟩
  else if u = urlB then
    .ok ⟨true, urlB, "content B", some "B", .plist [.pstr urlC]⟩
  else if u = urlC then
    .ok ⟨true, urlC, "content C", some "C", .plist []⟩
  else
    .error ()

/-- The budget of the spec §8 scenario: `maxDepth=2, maxPages=10`. -/
def demo_cfg : Config := ⟨urlA, 2, 10⟩

/-- A fetcher whose every fetch raises, for exercising the failure path. -/
def failing_fetch : Fetcher := fun _ => .error ()

/-- A one-page site: A succeeds with no links, every other URL fails to
fetch. -/
def single_fetch : Fetcher := fun u =>
  if u = urlA then .ok ⟨true, urlA, "only page", some "T", .plist []⟩
  else .error ()

end WebsiteCrawler

/-! ## Helper lemmas -/

namespace WebsiteCrawler

/-- The shared link-collection loop returns its accumulator followed by the
recognized entries, in order. -/
theorem collectLinks_eq (ll : List PyVal) :
    ∀ acc, collectLinks acc ll = acc ++ ll.filterMap recognizedEntry := by
  induction ll with
  | nil => intro acc; simp [collectLinks]
  | cons hd tl ih =>
    intro acc
    cases hd with
    | pstr s => simp [collectLinks, recognizedEntry, List.filterMap_cons] at ih ⊢; rw [ih]; simp
    | pdict fields =>
      simp only [collectLinks, List.foldl_cons, List.filterMap_cons, recognizedEntry]
      cases h : fields.lookup "href" with
      | none => simpa [collectLinks, h] using ih _
      | some v => simp only [collectLinks] at ih; rw [ih]; simp
    | plist xs => simpa [collectLinks, recognizedEntry] using ih _
    | pnone => simpa [collectLinks, recognizedEntry] using ih _
    | pother b => simpa [collectLinks, recognizedEntry] using ih _

/-- A fold that appends `g x` per element equals the accumulator followed
by the concatenation of the `g x`. -/
theorem foldl_extra {α β : Type} (g : α → List β) (step : List β → α → List β)
    (hstep : ∀ a x, step a x = a ++ g x) :
    ∀ (l : List α) (init : List β), l.foldl step init = init ++ l.flatMap g := by
  intro l
  induction l with
  | nil => intro init; simp
  | cons hd tl ih => intro init; simp [hstep, ih, List.append_assoc]

end WebsiteCrawler

namespace WebsiteCrawler

/-- The common per-category contribution of the dict branch: a list-valued
category other than `internal` contributes its recognized entries. -/
def categoryLinks (kv : String × PyVal) : List PyVal :=
  match kv.2 with
  | .plist ll => if kv.1 ≠ "internal" then ll.filterMap recognizedEntry else []
  | _ => []

end WebsiteCrawler

namespace WebsiteCrawler

/-- `crawl_page` either leaves the state unchanged and returns no links, or
extends the visited set by exactly one URL. -/
theorem crawl_page_cases (fetch : Fetcher) (cfg : Config) (st : CrawlerState)
    (url : String) (depth : Nat) :
    crawl_page fetch cfg st url depth = (st, []) ∨
      (crawl_page fetch cfg st url depth).1.visited.length
        = st.visited.length + 1 := by
  unfold crawl_page
  split
  · exact Or.inl rfl
  · by_cases hmem : normalize_url url ∈ st.visited
    · left; simp [hmem]
    · right
      simp only [hmem, if_false]
      cases fetch url with
      | error e => simp
      | ok r =>
        by_cases hs : r.success = true ∧ r.markdown ≠ ""
        · simp [hs]
        · simp [hs]

/-- When the fetch raises or yields an unsuccessful or empty result,
`crawl_page` records nothing: the page-record list and the indexed count
are unchanged and no links are returned (only the visited set and the
fetch log may grow). -/
theorem crawl_page_failure (fetch : Fetcher) (cfg : Config)
    (st : CrawlerState) (url : String) (depth : Nat)
    (hfail : fetch url = .error () ∨
      ∃ r, fetch url = .ok r ∧ ¬(r.success = true ∧ r.markdown ≠ "")) :
    (crawl_page fetch cfg st url depth).1.crawled_data = st.crawled_data ∧
    (crawl_page fetch cfg st url depth).1.indexed_count = st.indexed_count ∧
    (crawl_page fetch cfg st url depth).2 = [] := by
  unfold crawl_page
  split
  · simp
  · by_cases hmem : normalize_url url ∈ st.visited
    · simp [hmem]
    · simp only [hmem, if_false]
      rcases hfail with h | ⟨r, hr, hs⟩
      · rw [h]; simp
      · rw [hr]; simp [hs]

/-- Every link returned by `crawl_page` has its normalization outside the
visited set of the state `crawl_page` returns: already-visited URLs (the
page itself included) are never handed back for re-enqueueing. -/
theorem crawl_page_links_unvisited (fetch : Fetcher) (cfg : Config)
    (st : CrawlerState) (url : String) (depth : Nat) :
    ∀ l ∈ (crawl_page fetch cfg st url depth).2,
      normalize_url l ∉ (crawl_page fetch cfg st url depth).1.visited := by
  unfold crawl_page
  split
  · simp
  · by_cases hmem : normalize_url url ∈ st.visited
    · simp [hmem]
    · simp only [hmem, if_false]
      split
      · simp
      next r hr =>
        by_cases hs : r.success = true ∧ r.markdown ≠ ""
        · rw [if_pos hs]
          have key : ∀ (raw : List PyVal) (acc : List String),
              (∀ x ∈ acc,
                normalize_url x ∉ st.visited ++ [normalize_url url]) →
              ∀ l ∈ raw.foldl
                  (link_filter_step cfg url
                    (st.visited ++ [normalize_url url])) acc,
                normalize_url l ∉ st.visited ++ [normalize_url url] := by
            intro raw
            induction raw with
            | nil => intro acc hacc l hl; exact hacc l hl
            | cons hd tl ih =>
              intro acc hacc l hl
              simp only [List.foldl_cons] at hl
              refine ih _ ?_ l hl
              intro x hx
              cases hd with
              | pstr s =>
                simp only [link_filter_step] at hx
                cases hj : PyUrl.urljoin url s with
                | error e => rw [hj] at hx; exact hacc x hx
                | ok absu =>
                  rw [hj] at hx
                  by_cases hd2 : is_same_domain cfg.base_domain absu
                  · simp only [hd2, if_true] at hx
                    by_cases hv : normalize_url absu ∈
                        st.visited ++ [normalize_url url]
                    · simp only [hv, if_true, if_pos] at hx
                      exact hacc x hx
                    · simp only [hv, if_false] at hx
                      rcases List.mem_append.mp hx with h | h
                      · exact hacc x h
                      · rcases List.mem_singleton.mp h with rfl
                        exact hv
                  · simp only [hd2] at hx
                    simp at hx
                    exact hacc x hx
              | pdict fields => simp only [link_filter_step] at hx; exact hacc x hx
              | plist xs => simp only [link_filter_step] at hx; exact hacc x hx
              | pnone => simp only [link_filter_step] at hx; exact hacc x hx
              | pother b => simp only [link_filter_step] at hx; exact hacc x hx
          exact key _ [] (by simp)
        · simp [hs]

end WebsiteCrawler

namespace WebsiteCrawler

/-- `crawl_page` preserves the run invariant `StInv`. -/
theorem crawl_page_inv (fetch : Fetcher) (cfg : Config) (st : CrawlerState)
    (url : String) (depth : Nat) (hinv : StInv cfg st) :
    StInv cfg (crawl_page fetch cfg st url depth).1 := by
  obtain ⟨hnd, hlen, hlog, hidx, hdata, hdepth⟩ := hinv
  unfold crawl_page
  split
  · exact ⟨hnd, hlen, hlog, hidx, hdata, hdepth⟩
  next hguard =>
    push_neg at hguard
    obtain ⟨hdep, hbudget⟩ := hguard
    by_cases hmem : normalize_url url ∈ st.visited
    · simp only [hmem, if_true, if_pos]
      exact ⟨hnd, hlen, hlog, hidx, hdata, hdepth⟩
    · simp only [hmem, if_false]
      have hnd1 : (st.visited ++ [normalize_url url]).Nodup := by
        simp [List.nodup_append, hnd, hmem]
      have hlen1 : (st.visited ++ [normalize_url url]).length ≤ cfg.max_pages := by
        simp only [List.length_append, List.length_singleton]
        omega
      have hlog1 : st.visited ++ [normalize_url url]
          = (st.fetch_log ++ [url]).map normalize_url := by
        simp [hlog]
      split
      · exact ⟨hnd1, hlen1, hlog1, hidx, by simp only [List.length_append]; omega,
          hdepth⟩
      next r hr =>
        by_cases hs : r.success = true ∧ r.markdown ≠ ""
        · rw [if_pos hs]
          refine ⟨hnd1, hlen1, hlog1, by simp [hidx], ?_, ?_⟩
          · simp only [List.length_append, List.length_singleton]
            omega
          · intro x hx
            rcases List.mem_append.mp hx with h | h
            · exact hdepth x h
            · rcases List.mem_singleton.mp h with rfl
              exact hdep
        · rw [if_neg hs]
          exact ⟨hnd1, hlen1, hlog1, hidx, by simp only [List.length_append]; omega,
            hdepth⟩

/-- Any property preserved by `crawl_page` and true initially holds for the
final state of the frontier loop.  The induction follows the loop's
lexicographic measure: the outer `Nat` bounds the remaining page budget,
the inner structural induction handles iterations that consume a queue
entry without touching the state. -/
theorem crawl_website_loop_inv (fetch : Fetcher) (cfg : Config)
    (P : CrawlerState → Prop)
    (hpage : ∀ st url depth, P st → P (crawl_page fetch cfg st url depth).1) :
    ∀ (k : Nat) (q : List (String × Nat)) (st : CrawlerState),
      cfg.max_pages - st.visited.length ≤ k → P st →
      P (crawl_website_loop fetch cfg q st) := by
  intro k
  induction k with
  | zero =>
    intro q st hk hP
    cases q with
    | nil => unfold crawl_website_loop; exact hP
    | cons e rest =>
      obtain ⟨url, depth⟩ := e
      have hb : st.visited.length ≥ cfg.max_pages := by omega
      unfold crawl_website_loop
      rw [dif_pos hb]
      exact hP
  | succ k ihk =>
    intro q
    induction q with
    | nil => intro st hk hP; unfold crawl_website_loop; exact hP
    | cons e rest ihq =>
      obtain ⟨url, depth⟩ := e
      intro st hk hP
      unfold crawl_website_loop
      by_cases hb : st.visited.length ≥ cfg.max_pages
      · rw [dif_pos hb]; exact hP
      · rw [dif_neg hb]
        by_cases hd : depth > cfg.max_depth
        · rw [if_pos hd]
          exact ihq st hk hP
        · rw [if_neg hd]
          rcases crawl_page_cases fetch cfg st url depth with h | h
          · simp only [h, List.map_nil, List.append_nil, ite_self]
            exact ihq st hk hP
          · exact ihk _ _ (by omega) (hpage st url depth hP)

end WebsiteCrawler

namespace WebsiteCrawler

/-- Unfolding: an empty frontier ends the loop. -/
theorem crawl_website_loop_nil (fetch : Fetcher) (cfg : Config)
    (st : CrawlerState) :
    crawl_website_loop fetch cfg [] st = st := by
  unfold crawl_website_loop
  rfl

/-- Unfolding: a reached page budget ends the loop even with a non-empty
frontier. -/
theorem crawl_website_loop_budget (fetch : Fetcher) (cfg : Config)
    (url : String) (depth : Nat) (rest : List (String × Nat))
    (st : CrawlerState) (hb : st.visited.length ≥ cfg.max_pages) :
    crawl_website_loop fetch cfg ((url, depth) :: rest) st = st := by
  unfold crawl_website_loop
  rw [dif_pos hb]

/-- Unfolding: an entry beyond `max_depth` is dropped without fetching. -/
theorem crawl_website_loop_skip (fetch : Fetcher) (cfg : Config)
    (url : String) (depth : Nat) (rest : List (String × Nat))
    (st : CrawlerState) (hb : ¬ st.visited.length ≥ cfg.max_pages)
    (hd : depth > cfg.max_depth) :
    crawl_website_loop fetch cfg ((url, depth) :: rest) st
      = crawl_website_loop fetch cfg rest st := by
  conv_lhs => unfold crawl_website_loop
  rw [dif_neg hb, if_pos hd]

/-- Unfolding: one full iteration crawls the head entry and appends its
links at the tail with depth + 1 (while the budget allows). -/
theorem crawl_website_loop_step (fetch : Fetcher) (cfg : Config)
    (url : String) (depth : Nat) (rest : List (String × Nat))
    (st st' : CrawlerState) (links : List String)
    (hb : ¬ st.visited.length ≥ cfg.max_pages)
    (hd : ¬ depth > cfg.max_depth)
    (hcp : crawl_page fetch cfg st url depth = (st', links)) :
    crawl_website_loop fetch cfg ((url, depth) :: rest) st
      = crawl_website_loop fetch cfg
          (if st'.visited.length < cfg.max_pages then
            rest ++ links.map (fun l => (l, depth + 1))
          else rest) st' := by
  conv_lhs => unfold crawl_website_loop
  rw [dif_neg hb, if_neg hd]
  simp only [hcp]

end WebsiteCrawler

namespace PyUrl

/-- `l.contains a` agrees with list membership. -/
theorem contains_iff {α : Type} [BEq α] [LawfulBEq α] {l : List α} {a : α} :
    l.contains a = true ↔ a ∈ l :=
  List.elem_iff

/-- `Char.ofNat` of a valid code point has that code point. -/
theorem char_ofNat_toNat {n : Nat} (h : n.isValidChar) :
    (Char.ofNat n).toNat = n := by
  rw [Char.ofNat, dif_pos h]
  rfl

/-- Lower-casing a character twice is the same as once. -/
theorem char_toLower_idem (c : Char) : c.toLower.toLower = c.toLower := by
  by_cases h : c.toNat ≥ 65 ∧ c.toNat ≤ 90
  · have h1 : c.toLower = Char.ofNat (c.toNat + 32) := by
      unfold Char.toLower
      simp [h]
    have hval : (Char.ofNat (c.toNat + 32)).toNat = c.toNat + 32 :=
      char_ofNat_toNat (Or.inl (by omega))
    have h2 : ¬((Char.ofNat (c.toNat + 32)).toNat ≥ 65
        ∧ (Char.ofNat (c.toNat + 32)).toNat ≤ 90) := by
      rw [hval]; omega
    rw [h1]
    have h3 : (Char.ofNat (c.toNat + 32)).toLower = Char.ofNat (c.toNat + 32) := by
      unfold Char.toLower
      simp [h2]
    rw [h3]
  · have h1 : c.toLower = c := by
      unfold Char.toLower
      simp [h]
    rw [h1, h1]

/-- `isAlpha` in terms of the code point. -/
theorem char_isAlpha_iff (c : Char) : c.isAlpha = true ↔
    (65 ≤ c.toNat ∧ c.toNat ≤ 90) ∨ (97 ≤ c.toNat ∧ c.toNat ≤ 122) := by
  show (c.isUpper || c.isLower) = true ↔ _
  rw [Bool.or_eq_true]
  unfold Char.isUpper Char.isLower
  rw [Bool.and_eq_true, Bool.and_eq_true]
  simp only [decide_eq_true_eq]
  exact Iff.rfl

/-- `isDigit` in terms of the code point. -/
theorem char_isDigit_iff (c : Char) : c.isDigit = true ↔
    48 ≤ c.toNat ∧ c.toNat ≤ 57 := by
  unfold Char.isDigit
  rw [Bool.and_eq_true]
  simp only [decide_eq_true_eq]
  exact Iff.rfl

/-- Lower-casing either fixes the character or shifts an upper-case letter
down by 32. -/
theorem char_toLower_cases (c : Char) :
    c.toLower = c ∨
      (65 ≤ c.toNat ∧ c.toNat ≤ 90 ∧ c.toLower.toNat = c.toNat + 32) := by
  by_cases h : c.toNat ≥ 65 ∧ c.toNat ≤ 90
  · right
    have h1 : c.toLower = Char.ofNat (c.toNat + 32) := by
      unfold Char.toLower
      simp [h]
    exact ⟨h.1, h.2, by rw [h1]; exact char_ofNat_toNat (Or.inl (by omega))⟩
  · left
    unfold Char.toLower
    simp [h]

end PyUrl

namespace PyUrl

/-- Lower-casing preserves being alphabetic. -/
theorem char_isAlpha_toLower {c : Char} (h : c.isAlpha = true) :
    c.toLower.isAlpha = true := by
  rcases char_toLower_cases c with h1 | ⟨h1, h2, h3⟩
  · rwa [h1]
  · rw [char_isAlpha_iff]
    right
    rw [h3]
    omega

/-- Lower-casing preserves being a scheme character. -/
theorem schemeChar_toLower {c : Char} (h : schemeChar c = true) :
    schemeChar c.toLower = true := by
  rcases char_toLower_cases c with h1 | ⟨h1, h2, h3⟩
  · rwa [h1]
  · have hA : c.toLower.isAlpha = true := by
      rw [char_isAlpha_iff]
      right
      rw [h3]
      omega
    unfold schemeChar
    rw [hA]
    simp

/-- A scheme character is not one of the stripped unsafe bytes. -/
theorem schemeChar_not_unsafe {c : Char} (h : schemeChar c = true) :
    unsafeChar c = false := by
  cases hu : unsafeChar c
  · rfl
  · exfalso
    unfold unsafeChar at hu
    simp only [Bool.or_eq_true, decide_eq_true_eq] at hu
    have h2 : c = '\t' ∨ c = '\r' ∨ c = '\n' := by tauto
    rcases h2 with h1 | h1 | h1 <;> subst h1 <;> exact absurd h (by decide)

/-- A scheme character is not a colon. -/
theorem schemeChar_ne_colon {c : Char} (h : schemeChar c = true) :
    c ≠ ':' := by
  rintro rfl
  exact absurd h (by decide)

/-- An alphabetic character survives the C0-or-space left strip. -/
theorem isAlpha_not_c0 {c : Char} (h : c.isAlpha = true) :
    c0OrSpace c = false := by
  rw [char_isAlpha_iff] at h
  unfold c0OrSpace
  simp only [decide_eq_false_iff_not]
  intro hle
  have h32 : c.toNat ≤ 32 := hle
  omega
end PyUrl

namespace PyUrl

/-- `takeWhile` passes over a prefix whose elements all satisfy the
predicate. -/
theorem takeWhile_append_all {α : Type} {p : α → Bool} {xs ys : List α}
    (h : ∀ x ∈ xs, p x = true) :
    (xs ++ ys).takeWhile p = xs ++ ys.takeWhile p := by
  induction xs with
  | nil => simp
  | cons a tl ih =>
    simp only [List.cons_append,
      List.takeWhile_cons_of_pos (h a (List.mem_cons_self a tl))]
    rw [ih (fun x hx => h x (List.mem_cons_of_mem a hx))]

/-- `dropWhile` consumes a prefix whose elements all satisfy the
predicate. -/
theorem dropWhile_append_all {α : Type} {p : α → Bool} {xs ys : List α}
    (h : ∀ x ∈ xs, p x = true) :
    (xs ++ ys).dropWhile p = ys.dropWhile p := by
  induction xs with
  | nil => simp
  | cons a tl ih =>
    simp only [List.cons_append,
      List.dropWhile_cons_of_pos (h a (List.mem_cons_self a tl))]
    exact ih (fun x hx => h x (List.mem_cons_of_mem a hx))

/-- The sanitization pass fixes a list that starts with a non-stripped
character and contains no unsafe byte. -/
theorem cleanUrl_eq_self {l : List Char}
    (h0 : ∀ c, l.head? = some c → c0OrSpace c = false)
    (hu : ∀ c ∈ l, unsafeChar c = false) : cleanUrl l = l := by
  unfold cleanUrl
  cases l with
  | nil => rfl
  | cons c cs =>
    rw [List.dropWhile_cons_of_neg (by simp [h0 c rfl])]
    rw [List.filter_eq_self.mpr (fun a ha => by simp [hu a ha])]

end PyUrl

namespace PyUrl

/-- Re-parsing a reassembled `scheme://netloc path` string recovers its
components: the scheme is a valid scheme, the netloc contains no
`/ ? #` and is bracket-balanced, and the path is empty or slash-led with
no `? #`. -/
theorem urlsplit_reconstruct (s n pa : List Char)
    (hs : isValidScheme s = true)
    (hall : ∀ c ∈ s, schemeChar c = true)
    (hnc : ∀ c ∈ n, netlocChar c = true)
    (hnu : ∀ c ∈ n, unsafeChar c = false)
    (hbr : (n.contains '[' = true) ↔ (n.contains ']' = true))
    (hpa0 : pa = [] ∨ pa.head? = some '/')
    (hpaq : pa.contains '?' = false)
    (hpah : pa.contains '#' = false)
    (hpau : ∀ c ∈ pa, unsafeChar c = false) :
    urlsplit [] (s ++ ':' :: '/' :: '/' :: (n ++ pa))
      = .ok ⟨s.map Char.toLower, n, pa, [], []⟩ := by
  obtain ⟨c0, s', rfl⟩ : ∃ c0 s', s = c0 :: s' := by
    cases s with
    | nil => exact absurd hs (by simp [isValidScheme])
    | cons a b => exact ⟨a, b, rfl⟩
  have halpha : c0.isAlpha = true := by
    simp [isValidScheme, Bool.and_eq_true] at hs
    exact hs.1
  set L := (c0 :: s') ++ ':' :: '/' :: '/' :: (n ++ pa) with hL
  have hclean : cleanUrl L = L := by
    apply cleanUrl_eq_self
    · intro c hc
      simp only [hL, List.cons_append, List.head?_cons, Option.some.injEq] at hc
      rw [← hc]
      exact isAlpha_not_c0 halpha
    · intro c hc
      simp only [hL, List.cons_append, List.mem_cons, List.mem_append] at hc
      rcases hc with rfl | hc
      · exact schemeChar_not_unsafe (hall _ (List.mem_cons_self _ _))
      rcases hc with hc | hc
      · exact schemeChar_not_unsafe (hall _ (List.mem_cons_of_mem _ hc))
      rcases hc with rfl | hc
      · decide
      rcases hc with rfl | hc
      · decide
      rcases hc with rfl | hc
      · decide
      rcases hc with hc | hc
      · exact hnu _ hc
      · exact hpau _ hc
  have hnocolon : ∀ x ∈ c0 :: s', (x ≠ ':' : Bool) = true := by
    intro x hx
    simpa using schemeChar_ne_colon (hall x hx)
  have hpre : L.takeWhile (· ≠ ':') = c0 :: s' := by
    rw [hL, takeWhile_append_all hnocolon,
      List.takeWhile_cons_of_neg (by simp)]
    simp
  have hdrop : (L.dropWhile (· ≠ ':')).tail = '/' :: '/' :: (n ++ pa) := by
    rw [hL, dropWhile_append_all hnocolon,
      List.dropWhile_cons_of_neg (by simp)]
    rfl
  have hsplitscheme : splitScheme L
      = (some ((c0 :: s').map Char.toLower), '/' :: '/' :: (n ++ pa)) := by
    unfold splitScheme
    rw [hpre, hdrop]
    have hcontains : L.contains ':' = true := by
      rw [contains_iff, hL]
      simp
    rw [hcontains]
    simp [hs]
  have hnet1 : List.takeWhile netlocChar (n ++ pa) = n := by
    rcases hpa0 with rfl | hpa0
    · rw [takeWhile_append_all hnc]
      simp
    · obtain ⟨pa', rfl⟩ := List.head?_eq_some_iff.mp hpa0
      rw [takeWhile_append_all hnc, List.takeWhile_cons_of_neg (by decide)]
      simp
  have hnet2 : List.dropWhile netlocChar (n ++ pa) = pa := by
    rcases hpa0 with rfl | hpa0
    · rw [dropWhile_append_all hnc]
      simp
    · obtain ⟨pa', rfl⟩ := List.head?_eq_some_iff.mp hpa0
      rw [dropWhile_append_all hnc, List.dropWhile_cons_of_neg (by decide)]
  have hnet : splitNetloc (n ++ pa) = (n, pa) := by
    unfold splitNetloc
    rw [hnet1, hnet2]
  have hfrag : splitFirst '#' pa = (pa, []) := by
    unfold splitFirst
    rw [hpah]
    simp
  have hquery : splitFirst '?' pa = (pa, []) := by
    unfold splitFirst
    rw [hpaq]
    simp
  have hbrfalse : ((n.contains '[' && !n.contains ']')
      || (n.contains ']' && !n.contains '[')) = false := by
    cases h1 : n.contains '[' <;> cases h2 : n.contains ']' <;> simp_all
  unfold urlsplit
  simp [hclean, hsplitscheme, hnet, hbrfalse, hfrag, hquery]
  refine ⟨fun hm => ?_, fun hm => ?_⟩
  · exact contains_iff.mp (hbr.mp (contains_iff.mpr hm))
  · exact contains_iff.mp (hbr.mpr (contains_iff.mpr hm))


/-- `urlparse` version of the reconstruction: with no `;` in the path, the
params are empty and the path is returned whole. -/
theorem urlparse_reconstruct (s n pa : List Char)
    (hs : isValidScheme s = true)
    (hall : ∀ c ∈ s, schemeChar c = true)
    (hnc : ∀ c ∈ n, netlocChar c = true)
    (hnu : ∀ c ∈ n, unsafeChar c = false)
    (hbr : (n.contains '[' = true) ↔ (n.contains ']' = true))
    (hpa0 : pa = [] ∨ pa.head? = some '/')
    (hpaq : pa.contains '?' = false)
    (hpah : pa.contains '#' = false)
    (hpau : ∀ c ∈ pa, unsafeChar c = false)
    (hsemi : pa.contains ';' = false) :
    urlparse [] (s ++ ':' :: '/' :: '/' :: (n ++ pa))
      = .ok ⟨s.map Char.toLower, n, pa, [], [], []⟩ := by
  unfold urlparse
  rw [urlsplit_reconstruct s n pa hs hall hnc hnu hbr hpa0 hpaq hpah hpau]
  show Except.ok
      (ParseResult.mk (s.map Char.toLower) n
        (if pa.contains ';' = true then splitparams pa else (pa, [])).1
        (if pa.contains ';' = true then splitparams pa else (pa, [])).2 [] [])
    = Except.ok (ParseResult.mk (s.map Char.toLower) n pa [] [] [])
  rw [if_neg (fun hc => by rw [hsemi] at hc; exact absurd hc (by decide))]

end PyUrl

namespace PyUrl

/-- The scheme `urlsplit` emits — the lower-casing of a valid scheme — is
itself a valid, lower-case-fixed scheme. -/
theorem scheme_output_facts {pre : List Char} (h : isValidScheme pre = true) :
    isValidScheme (pre.map Char.toLower) = true ∧
    (pre.map Char.toLower).map Char.toLower = pre.map Char.toLower ∧
    ∀ c ∈ pre.map Char.toLower, schemeChar c = true := by
  cases pre with
  | nil => simp [isValidScheme] at h
  | cons c0 tl =>
    simp only [isValidScheme, Bool.and_eq_true, List.all_eq_true] at h
    obtain ⟨halpha, hall⟩ := h
    have hmem : ∀ c ∈ (c0 :: tl).map Char.toLower, schemeChar c = true := by
      intro x hx
      rw [List.mem_map] at hx
      obtain ⟨y, hy, rfl⟩ := hx
      exact schemeChar_toLower (hall y hy)
    refine ⟨?_, ?_, hmem⟩
    · simp only [List.map_cons, isValidScheme, Bool.and_eq_true, List.all_eq_true]
      constructor
      · exact char_isAlpha_toLower halpha
      · intro x hx
        have : x ∈ ((c0 :: tl).map Char.toLower) := by
          simp only [List.map_cons]
          exact hx
        exact hmem x this
    · rw [List.map_map]
      apply List.map_congr_left
      intro a _
      exact char_toLower_idem a

end PyUrl

namespace PyUrl

/-- Sanitized URLs contain no unsafe byte. -/
theorem mem_cleanUrl_not_unsafe {u : List Char} {x : Char}
    (hx : x ∈ cleanUrl u) : unsafeChar x = false := by
  unfold cleanUrl at hx
  have := (List.mem_filter.mp hx).2
  simpa using this

/-- The remainder after scheme splitting is drawn from the input. -/
theorem mem_splitScheme_snd {l : List Char} {x : Char}
    (hx : x ∈ (splitScheme l).2) : x ∈ l := by
  simp only [splitScheme] at hx
  split at hx
  · exact (List.dropWhile_sublist _).subset ((List.tail_sublist _).subset hx)
  · exact hx

/-- The before-part of a first-occurrence split never contains the
separator. -/
theorem splitFirst_fst_no_sep (sep : Char) (l : List Char) :
    ((splitFirst sep l).1.contains sep) = false := by
  simp only [splitFirst]
  split
  next h =>
    cases hc : (l.takeWhile (· ≠ sep)).contains sep
    · rfl
    · have := List.mem_takeWhile_imp (contains_iff.mp hc)
      simp at this
  next h =>
    simpa using h

/-- The before-part of a first-occurrence split is drawn from the input. -/
theorem splitFirst_fst_subset (sep : Char) (l : List Char) :
    ∀ x ∈ (splitFirst sep l).1, x ∈ l := by
  simp only [splitFirst]
  split
  · exact fun x hx => List.takeWhile_subset _ hx
  · exact fun x hx => hx

/-- The before-part of a first-occurrence split is empty or starts like the
input. -/
theorem splitFirst_fst_head (sep : Char) (l : List Char) :
    (splitFirst sep l).1 = [] ∨ (splitFirst sep l).1.head? = l.head? := by
  simp only [splitFirst]
  split
  · cases l with
    | nil => left; rfl
    | cons a tl =>
      by_cases ha : a = sep
      · left
        subst ha
        simp [List.takeWhile_cons]
      · right
        simp [List.takeWhile_cons, ha]
  · right; rfl

/-- `dropWhile` is empty or starts with an element falsifying the
predicate. -/
theorem dropWhile_head_not {α : Type} (p : α → Bool) (l : List α) :
    l.dropWhile p = [] ∨
      ∃ c cs, l.dropWhile p = c :: cs ∧ p c = false := by
  induction l with
  | nil => left; rfl
  | cons a tl ih =>
    by_cases ha : p a = true
    · rw [List.dropWhile_cons_of_pos ha]
      exact ih
    · rw [List.dropWhile_cons_of_neg ha]
      exact Or.inr ⟨a, tl, rfl, by simpa using ha⟩

/-- The path part of the params split is a prefix of the input path. -/
theorem splitparams_fst_prefix (l : List Char) : (splitparams l).1 <+: l := by
  simp only [splitparams]
  split
  · split
    · have hsplit : (l.reverse.dropWhile (· ≠ '/')).reverse
          ++ (l.reverse.takeWhile (· ≠ '/')).reverse = l := by
        rw [← List.reverse_append, List.takeWhile_append_dropWhile,
          List.reverse_reverse]
      refine ⟨(((l.reverse.takeWhile (· ≠ '/')).reverse).dropWhile (· ≠ ';')), ?_⟩
      rw [List.append_assoc, List.takeWhile_append_dropWhile]
      exact hsplit
    · exact List.prefix_refl l
  · split
    · exact ⟨(l.dropWhile (· ≠ ';')), List.takeWhile_append_dropWhile _ l⟩
    · exact List.dropLast_prefix l

end PyUrl

namespace PyUrl

/-- Absence of a character is inherited by sub-collections. -/
theorem contains_false_of_subset {a b : List Char} {c : Char}
    (hsub : ∀ x ∈ a, x ∈ b) (hb : b.contains c = false) :
    a.contains c = false := by
  cases hc : a.contains c
  · rfl
  · rw [contains_iff.mpr (hsub c (contains_iff.mp hc))] at hb
    exact hb

/-- A first-occurrence split keeps a head that is not the separator. -/
theorem splitFirst_head_same {sep a : Char} (cs : List Char) (ha : a ≠ sep) :
    (splitFirst sep (a :: cs)).1.head? = some a := by
  simp only [splitFirst]
  split
  · rw [List.takeWhile_cons_of_pos (by simpa using ha)]
    rfl
  · rfl

/-- A first-occurrence split at a leading separator empties the
before-part. -/
theorem splitFirst_head_sep (sep : Char) (cs : List Char) :
    (splitFirst sep (sep :: cs)).1 = [] := by
  simp only [splitFirst]
  rw [if_pos (by rw [contains_iff]; exact List.mem_cons_self _ _)]
  simp [List.takeWhile_cons]

/-- The only characters a netloc scan stops at are `/`, `?` and `#`. -/
theorem netlocChar_false_cases {c : Char} (h : netlocChar c = false) :
    c = '/' ∨ c = '?' ∨ c = '#' := by
  by_contra hcon
  push_neg at hcon
  obtain ⟨h1, h2, h3⟩ := hcon
  simp [netlocChar, h1, h2, h3] at h

/-- Soundness of `urlsplit` under the empty default scheme: the parts of a
successful split satisfy the well-formedness facts the reconstruction
lemma needs. -/
theorem urlsplit_ok_facts (u : List Char) (sp : SplitResult)
    (hp : urlsplit [] u = .ok sp) :
    (sp.scheme ≠ [] →
      isValidScheme sp.scheme = true ∧
      sp.scheme.map Char.toLower = sp.scheme ∧
      ∀ c ∈ sp.scheme, schemeChar c = true) ∧
    (∀ c ∈ sp.netloc, netlocChar c = true) ∧
    (∀ c ∈ sp.netloc, unsafeChar c = false) ∧
    ((sp.netloc.contains '[' = true) ↔ (sp.netloc.contains ']' = true)) ∧
    (sp.netloc ≠ [] → (sp.path = [] ∨ sp.path.head? = some '/')) ∧
    sp.path.contains '?' = false ∧
    sp.path.contains '#' = false ∧
    (∀ c ∈ sp.path, unsafeChar c = false) := by
  have hscheme : ∀ (q : SplitResult),
      q.scheme = (splitScheme (cleanUrl u)).1.getD (cleanScheme []) →
      (q.scheme ≠ [] →
        isValidScheme q.scheme = true ∧
        q.scheme.map Char.toLower = q.scheme ∧
        ∀ c ∈ q.scheme, schemeChar c = true) := by
    intro q hq hne
    rw [hq] at hne ⊢
    simp only [splitScheme] at hne ⊢
    by_cases hcond : ((cleanUrl u).contains ':'
        && isValidScheme ((cleanUrl u).takeWhile (· ≠ ':'))) = true
    · rw [if_pos hcond] at hne ⊢
      simp only [Option.getD_some] at hne ⊢
      rw [Bool.and_eq_true] at hcond
      exact scheme_output_facts hcond.2
    · rw [if_neg hcond] at hne
      exact absurd rfl hne
  simp only [urlsplit] at hp
  split at hp
  next htake =>
    split at hp
    · cases hp
    next hbrneg =>
      rw [Except.ok.injEq] at hp
      subst hp
      set L := cleanUrl u with hLdef
      set X := (splitScheme L).2.drop 2 with hX
      have hmemN : ∀ x ∈ (splitNetloc X).1, netlocChar x = true ∧ x ∈ L := by
        intro x hx
        exact ⟨List.mem_takeWhile_imp hx,
          mem_splitScheme_snd (List.drop_subset 2 _ (List.takeWhile_subset _ hx))⟩
      have hmemP22 : ∀ x ∈ (splitNetloc X).2, x ∈ L := by
        intro x hx
        exact mem_splitScheme_snd
          (List.drop_subset 2 _ ((List.dropWhile_sublist _).subset hx))
      have hpathsub :
          ∀ x ∈ (splitFirst '?' (splitFirst '#' (splitNetloc X).2).1).1,
            x ∈ (splitNetloc X).2 :=
        fun x hx => splitFirst_fst_subset '#' _ _
          (splitFirst_fst_subset '?' _ _ hx)
      refine ⟨hscheme _ rfl, ?_, ?_, ?_, ?_, ?_, ?_, ?_⟩
      · exact fun c hc => (hmemN c hc).1
      · exact fun c hc => mem_cleanUrl_not_unsafe ((hmemN c hc).2)
      · constructor
        · intro h1
          have h1a : (splitNetloc X).1.contains '[' = true := h1
          show (splitNetloc X).1.contains ']' = true
          cases h2 : (splitNetloc X).1.contains ']'
          · refine absurd ?_ hbrneg
            simp only [Bool.or_eq_true, Bool.and_eq_true, Bool.not_eq_true']
            exact Or.inl ⟨h1a, h2⟩
          · rfl
        · intro h2
          have h2a : (splitNetloc X).1.contains ']' = true := h2
          show (splitNetloc X).1.contains '[' = true
          cases h1 : (splitNetloc X).1.contains '['
          · refine absurd ?_ hbrneg
            simp only [Bool.or_eq_true, Bool.and_eq_true, Bool.not_eq_true']
            exact Or.inr ⟨h2a, h1⟩
          · rfl
      · intro _
        rcases dropWhile_head_not netlocChar X with hnil | ⟨c, cs, hcons, hcfalse⟩
        · left
          show (splitFirst '?' (splitFirst '#' (X.dropWhile netlocChar)).1).1 = []
          rw [hnil]
          rfl
        · have hcons2 : (splitNetloc X).2 = c :: cs := hcons
          rcases netlocChar_false_cases hcfalse with rfl | rfl | rfl
          · rcases splitFirst_fst_head '#' (splitNetloc X).2 with hn | hh
            · left
              rw [hn]
              rfl
            · rcases splitFirst_fst_head '?' (splitFirst '#' (splitNetloc X).2).1
                with hn2 | hh2
              · left
                exact hn2
              · right
                rw [hh2, hh, hcons2]
                rfl
          · have hh : (splitFirst '#' (splitNetloc X).2).1.head? = some '?' := by
              rw [hcons2]
              exact splitFirst_head_same cs (by decide)
            obtain ⟨zs, hz⟩ := List.head?_eq_some_iff.mp hh
            left
            show (splitFirst '?' (splitFirst '#' (splitNetloc X).2).1).1 = []
            rw [hz]
            exact splitFirst_head_sep '?' zs
          · have hh : (splitFirst '#' (splitNetloc X).2).1 = [] := by
              rw [hcons2]
              exact splitFirst_head_sep '#' cs
            left
            show (splitFirst '?' (splitFirst '#' (splitNetloc X).2).1).1 = []
            rw [hh]
            rfl
      · exact splitFirst_fst_no_sep '?' _
      · exact contains_false_of_subset (splitFirst_fst_subset '?' _)
          (splitFirst_fst_no_sep '#' _)
      · exact fun c hc => mem_cleanUrl_not_unsafe (hmemP22 c (hpathsub c hc))
  next htake =>
    split at hp
    · cases hp
    next hbrneg =>
      rw [Except.ok.injEq] at hp
      subst hp
      set L := cleanUrl u with hLdef
      have hpathsub :
          ∀ x ∈ (splitFirst '?' (splitFirst '#' (splitScheme L).2).1).1,
            x ∈ L :=
        fun x hx => mem_splitScheme_snd
          (splitFirst_fst_subset '#' _ _ (splitFirst_fst_subset '?' _ _ hx))
      refine ⟨hscheme _ rfl, ?_, ?_, ?_, ?_, ?_, ?_, ?_⟩
      · intro c hc
        exact absurd hc (List.not_mem_nil c)
      · intro c hc
        exact absurd hc (List.not_mem_nil c)
      · simp
      · intro hne
        exact absurd rfl hne
      · exact splitFirst_fst_no_sep '?' _
      · exact contains_false_of_subset (splitFirst_fst_subset '?' _)
          (splitFirst_fst_no_sep '#' _)
      · exact fun c hc => mem_cleanUrl_not_unsafe (hpathsub c hc)

end PyUrl

namespace PyUrl

/-- Soundness of `urlparse` under the empty default scheme: the facts of
`urlsplit_ok_facts` transfer to the params-stripped path. -/
theorem urlparse_ok_facts (u : List Char) (p : ParseResult)
    (hp : urlparse [] u = .ok p) :
    (p.scheme ≠ [] →
      isValidScheme p.scheme = true ∧
      p.scheme.map Char.toLower = p.scheme ∧
      ∀ c ∈ p.scheme, schemeChar c = true) ∧
    (∀ c ∈ p.netloc, netlocChar c = true) ∧
    (∀ c ∈ p.netloc, unsafeChar c = false) ∧
    ((p.netloc.contains '[' = true) ↔ (p.netloc.contains ']' = true)) ∧
    (p.netloc ≠ [] → (p.path = [] ∨ p.path.head? = some '/')) ∧
    p.path.contains '?' = false ∧
    p.path.contains '#' = false ∧
    (∀ c ∈ p.path, unsafeChar c = false) := by
  unfold urlparse at hp
  cases hsp : urlsplit [] u with
  | error e =>
    rw [hsp] at hp
    cases hp
  | ok sp =>
    rw [hsp] at hp
    obtain ⟨f1, f2, f3, f4, f5, f6, f7, f8⟩ := urlsplit_ok_facts u sp hsp
    have hp2 := (Except.ok.inj hp).symm
    subst hp2
    simp only []
    set P := (if sp.path.contains ';' = true then splitparams sp.path
        else (sp.path, [])).1 with hPdef
    have hprefix : P <+: sp.path := by
      rw [hPdef]
      split
      · exact splitparams_fst_prefix sp.path
      · exact List.prefix_refl sp.path
    obtain ⟨t, ht⟩ := hprefix
    have hsub : ∀ x ∈ P, x ∈ sp.path := by
      intro x hx
      rw [← ht]
      exact List.mem_append_left t hx
    refine ⟨f1, f2, f3, f4, ?_, ?_, ?_, ?_⟩
    · intro hne
      rcases f5 hne with hnil | hhead
      · left
        rw [hnil] at ht
        exact List.append_eq_nil.mp ht |>.1
      · by_cases hP : P = []
        · left
          exact hP
        · right
          obtain ⟨c, cs, hcons⟩ := List.exists_cons_of_ne_nil hP
          rw [← ht, hcons] at hhead
          rw [hcons]
          simpa using hhead
    · exact contains_false_of_subset hsub f6
    · exact contains_false_of_subset hsub f7
    · exact fun c hc => f8 c (hsub c hc)

end PyUrl

namespace WebsiteCrawler

/-- An assembled `scheme://netloc/path` URL whose parts are well formed and
which does not trigger the trailing-slash drop is a fixed point of
`normalize_url`. -/
theorem normalize_url_reconstruct (s n pa : List Char)
    (hs : PyUrl.isValidScheme s = true)
    (hlow : s.map Char.toLower = s)
    (hall : ∀ c ∈ s, PyUrl.schemeChar c = true)
    (hnc : ∀ c ∈ n, PyUrl.netlocChar c = true)
    (hnu : ∀ c ∈ n, PyUrl.unsafeChar c = false)
    (hbr : (n.contains '[' = true) ↔ (n.contains ']' = true))
    (hpa0 : pa = [] ∨ pa.head? = some '/')
    (hpaq : pa.contains '?' = false)
    (hpah : pa.contains '#' = false)
    (hpau : ∀ c ∈ pa, PyUrl.unsafeChar c = false)
    (hsemi : pa.contains ';' = false)
    (hnodrop : ¬((s ++ [':', '/', '/'] ++ n ++ pa).getLast? = some '/'
        ∧ pa.length > 1)) :
    normalize_url (String.mk (s ++ [':', '/', '/'] ++ n ++ pa))
      = String.mk (s ++ [':', '/', '/'] ++ n ++ pa) := by
  have hshape : s ++ [':', '/', '/'] ++ n ++ pa
      = s ++ ':' :: '/' :: '/' :: (n ++ pa) := by
    simp [List.append_assoc]
  have hparse := PyUrl.urlparse_reconstruct s n pa hs hall hnc hnu hbr hpa0 hpaq
    hpah hpau hsemi
  unfold normalize_url
  rw [show (String.mk (s ++ [':', '/', '/'] ++ n ++ pa)).data
      = s ++ [':', '/', '/'] ++ n ++ pa from rfl, hshape, hparse]
  simp only []
  rw [if_neg (by rw [hlow]; exact hnodrop), hlow]
  rw [hshape]

end WebsiteCrawler

namespace WebsiteCrawler

/-- A left fold by `Nat.max` dominates its initial value. -/
theorem init_le_foldl_max : ∀ (xs : List Nat) (a : Nat), a ≤ xs.foldl Nat.max a := by
  intro xs
  induction xs with
  | nil => intro a; exact Nat.le_refl a
  | cons x tl ih =>
    intro a
    exact le_trans (Nat.le_max_left a x) (ih (Nat.max a x))

/-- A left fold by `Nat.max` dominates every list element. -/
theorem mem_le_foldl_max : ∀ (xs : List Nat) (a : Nat),
    ∀ x ∈ xs, x ≤ xs.foldl Nat.max a := by
  intro xs
  induction xs with
  | nil => intro a x hx; exact absurd hx (List.not_mem_nil x)
  | cons y tl ih =>
    intro a x hx
    rcases List.mem_cons.mp hx with rfl | hx
    · exact le_trans (Nat.le_max_right a x) (init_le_foldl_max tl (Nat.max a x))
    · exact ih (Nat.max a y) x hx

/-- A left fold by `Nat.max` is attained by the initial value or a list
element. -/
theorem foldl_max_mem : ∀ (xs : List Nat) (a : Nat),
    xs.foldl Nat.max a ∈ a :: xs := by
  intro xs
  induction xs with
  | nil => intro a; exact List.mem_singleton.mpr rfl
  | cons x tl ih =>
    intro a
    rcases List.mem_cons.mp (ih (Nat.max a x)) with h | h
    · rcases Nat.le_total a x with hle | hle
      · rw [List.foldl_cons, h]
        show max a x ∈ a :: x :: tl
        rw [max_eq_right hle]
        exact List.mem_cons_of_mem a (List.mem_cons_self x tl)
      · rw [List.foldl_cons, h]
        show max a x ∈ a :: x :: tl
        rw [max_eq_left hle]
        exact List.mem_cons_self a (x :: tl)
    · rw [List.foldl_cons]
      exact List.mem_cons_of_mem a (List.mem_cons_of_mem x h)

end WebsiteCrawler

/-! ## Claims -/

namespace WebsiteCrawler

/-- C1 (counterexample): the claim that the query string is preserved by
`_normalize_url` — so that two URLs differing only in query normalize to
different strings — is false on the code: `"https://a.com/p?x=1"` and
`"https://a.com/p?x=2"` differ only in their query yet normalize to the
same string, `"https://a.com/p"`; the query is dropped. -/
theorem C1_query_counterexample :
    normalize_url "https://a.com/p?x=1" = normalize_url "https://a.com/p?x=2" ∧
    normalize_url "https://a.com/p?x=1" = "https://a.com/p" ∧
    ("https://a.com/p?x=1" : String) ≠ "https://a.com/p?x=2" := by
  decide

/-- C1 (amended): `_normalize_url` keeps only the scheme, host and path of
a URL that parses: any two URLs agreeing on those three components — in
particular two URLs differing only in fragment, and also two differing
only in query or params — normalize to the same string. -/
theorem C1_normalize_drops_fragment_and_query (u1 u2 : String)
    (p1 p2 : PyUrl.ParseResult)
    (h1 : PyUrl.urlparse [] u1.data = .ok p1)
    (h2 : PyUrl.urlparse [] u2.data = .ok p2)
    (hs : p1.scheme = p2.scheme) (hn : p1.netloc = p2.netloc)
    (hpath : p1.path = p2.path) :
    normalize_url u1 = normalize_url u2 := by
  unfold normalize_url
  rw [h1, h2]
  simp only [hs, hn, hpath]

/-- C1 (witness): the amended theorem applied to two URLs differing in both
query and fragment. -/
theorem C1_normalize_witness :
    normalize_url "https://a.com/p?x=1#f1" = normalize_url "https://a.com/p?y=2#f2" :=
  C1_normalize_drops_fragment_and_query
    "https://a.com/p?x=1#f1" "https://a.com/p?y=2#f2"
    ⟨"https".data, "a.com".data, "/p".data, [], "x=1".data, "f1".data⟩
    ⟨"https".data, "a.com".data, "/p".data, [], "y=2".data, "f2".data⟩
    rfl rfl rfl rfl rfl

/-- C2: for every crawl run (any fetcher, any budget with `maxPages > 0`),
the number of `PageRecord`s produced never exceeds `maxPages` and the
depth recorded in every `PageRecord` is at most `maxDepth`. -/
theorem C2_budget_respected (fetch : Fetcher) (cfg : Config)
    (hpos : 0 < cfg.max_pages) :
    (crawl_website fetch cfg).data.length ≤ cfg.max_pages ∧
    ∀ rec ∈ (crawl_website fetch cfg).data, rec.depth ≤ cfg.max_depth := by
  have hinit : StInv cfg initialState :=
    ⟨List.nodup_nil, Nat.zero_le _, rfl, rfl, Nat.le_refl 0,
      fun r hr => absurd hr (List.not_mem_nil r)⟩
  have hfinal := crawl_website_loop_inv fetch cfg (StInv cfg)
    (fun st url depth h => crawl_page_inv fetch cfg st url depth h)
    cfg.max_pages [(cfg.base_url, 0)] initialState (by omega) hinit
  obtain ⟨-, hlen, -, -, hdata, hdepth⟩ := hfinal
  exact ⟨le_trans hdata hlen, hdepth⟩

/-- C2 (witness): the budget theorem at the three-page demo site. -/
theorem C2_budget_witness :
    (crawl_website demo_fetch demo_cfg).data.length ≤ demo_cfg.max_pages ∧
    ∀ rec ∈ (crawl_website demo_fetch demo_cfg).data,
      rec.depth ≤ demo_cfg.max_depth :=
  C2_budget_respected demo_fetch demo_cfg (by decide)

/-- C3: within a single crawl run no normalized URL is fetched twice — the
log of calls to the external fetcher has pairwise-distinct normalizations
(mark-before-fetch) — and a link whose normalization is already in the
visited set when a page's links are filtered is never handed back for
re-enqueueing (a page linking to itself or to an already-visited ancestor
does not requeue it). -/
theorem C3_no_double_fetch (fetch : Fetcher) (cfg : Config) :
    ((crawl_website_final fetch cfg).fetch_log.map normalize_url).Nodup ∧
    ∀ (st : CrawlerState) (url : String) (depth : Nat) (l : String),
      l ∈ (crawl_page fetch cfg st url depth).2 →
      normalize_url l ∉ (crawl_page fetch cfg st url depth).1.visited := by
  constructor
  · have hinit : StInv cfg initialState :=
      ⟨List.nodup_nil, Nat.zero_le _, rfl, rfl, Nat.le_refl 0,
        fun r hr => absurd hr (List.not_mem_nil r)⟩
    have hfinal := crawl_website_loop_inv fetch cfg (StInv cfg)
      (fun st url depth h => crawl_page_inv fetch cfg st url depth h)
      cfg.max_pages [(cfg.base_url, 0)] initialState (by omega) hinit
    obtain ⟨hnd, -, hlog, -, -, -⟩ := hfinal
    unfold crawl_website_final
    rw [← hlog]
    exact hnd
  · exact fun st url depth l hl =>
      crawl_page_links_unvisited fetch cfg st url depth l hl

/-- C3 (witness): on the demo site, page B discovered by A is not yet
visited, so it is returned for enqueueing and its normalization is indeed
outside the updated visited set. -/
theorem C3_no_double_fetch_witness :
    normalize_url urlB ∉
      (crawl_page demo_fetch demo_cfg initialState urlA 0).1.visited :=
  (C3_no_double_fetch demo_fetch demo_cfg).2 initialState urlA 0 urlB (by decide)

end WebsiteCrawler

namespace WebsiteCrawler

/-- C4: the frontier is processed in strict FIFO (breadth-first) order: on
the three-page demo site (A links to B and C, B links to C) with
`maxDepth = 2, maxPages = 10`, the crawl fetches exactly A, B, C, once
each, in that order; the visited set is `{A, B, C}` and the records carry
the BFS depths 0, 1, 1. -/
theorem C4_bfs_scenario :
    (crawl_website_final demo_fetch demo_cfg).fetch_log = [urlA, urlB, urlC] ∧
    (crawl_website_final demo_fetch demo_cfg).visited = [urlA, urlB, urlC] ∧
    (crawl_website_final demo_fetch demo_cfg).crawled_data.map
      (fun r => (r.url, r.depth)) = [(urlA, 0), (urlB, 1), (urlC, 1)] := by
  have h1 : crawl_page demo_fetch demo_cfg initialState urlA 0 =
      (⟨[urlA], [⟨urlA, "content A", "A", 0⟩], 1, [urlA]⟩, [urlB, urlC]) := by
    decide
  have h2 : crawl_page demo_fetch demo_cfg
      ⟨[urlA], [⟨urlA, "content A", "A", 0⟩], 1, [urlA]⟩ urlB 1 =
      (⟨[urlA, urlB],
        [⟨urlA, "content A", "A", 0⟩, ⟨urlB, "content B", "B", 1⟩], 2,
        [urlA, urlB]⟩, [urlC]) := by
    decide
  have h3 : crawl_page demo_fetch demo_cfg
      ⟨[urlA, urlB],
        [⟨urlA, "content A", "A", 0⟩, ⟨urlB, "content B", "B", 1⟩], 2,
        [urlA, urlB]⟩ urlC 1 =
      (⟨[urlA, urlB, urlC],
        [⟨urlA, "content A", "A", 0⟩, ⟨urlB, "content B", "B", 1⟩,
         ⟨urlC, "content C", "C", 1⟩], 3, [urlA, urlB, urlC]⟩, []) := by
    decide
  have h4 : crawl_page demo_fetch demo_cfg
      ⟨[urlA, urlB, urlC],
        [⟨urlA, "content A", "A", 0⟩, ⟨urlB, "content B", "B", 1⟩,
         ⟨urlC, "content C", "C", 1⟩], 3, [urlA, urlB, urlC]⟩ urlC 2 =
      (⟨[urlA, urlB, urlC],
        [⟨urlA, "content A", "A", 0⟩, ⟨urlB, "content B", "B", 1⟩,
         ⟨urlC, "content C", "C", 1⟩], 3, [urlA, urlB, urlC]⟩, []) := by
    decide
  have hfinal : crawl_website_final demo_fetch demo_cfg =
      ⟨[urlA, urlB, urlC],
        [⟨urlA, "content A", "A", 0⟩, ⟨urlB, "content B", "B", 1⟩,
         ⟨urlC, "content C", "C", 1⟩], 3, [urlA, urlB, urlC]⟩ := by
    rw [crawl_website_final]
    show crawl_website_loop demo_fetch demo_cfg [(urlA, 0)] initialState = _
    rw [crawl_website_loop_step demo_fetch demo_cfg urlA 0 [] _ _ _
      (by decide) (by decide) h1]
    show crawl_website_loop demo_fetch demo_cfg [(urlB, 1), (urlC, 1)]
      ⟨[urlA], [⟨urlA, "content A", "A", 0⟩], 1, [urlA]⟩ = _
    rw [crawl_website_loop_step demo_fetch demo_cfg urlB 1 [(urlC, 1)] _ _ _
      (by decide) (by decide) h2]
    show crawl_website_loop demo_fetch demo_cfg [(urlC, 1), (urlC, 2)]
      ⟨[urlA, urlB],
        [⟨urlA, "content A", "A", 0⟩, ⟨urlB, "content B", "B", 1⟩], 2,
        [urlA, urlB]⟩ = _
    rw [crawl_website_loop_step demo_fetch demo_cfg urlC 1 [(urlC, 2)] _ _ _
      (by decide) (by decide) h3]
    show crawl_website_loop demo_fetch demo_cfg [(urlC, 2)]
      ⟨[urlA, urlB, urlC],
        [⟨urlA, "content A", "A", 0⟩, ⟨urlB, "content B", "B", 1⟩,
         ⟨urlC, "content C", "C", 1⟩], 3, [urlA, urlB, urlC]⟩ = _
    rw [crawl_website_loop_step demo_fetch demo_cfg urlC 2 [] _ _ _
      (by decide) (by decide) h4]
    show crawl_website_loop demo_fetch demo_cfg []
      ⟨[urlA, urlB, urlC],
        [⟨urlA, "content A", "A", 0⟩, ⟨urlB, "content B", "B", 1⟩,
         ⟨urlC, "content C", "C", 1⟩], 3, [urlA, urlB, urlC]⟩ = _
    exact crawl_website_loop_nil _ _ _
  rw [hfinal]
  refine ⟨rfl, rfl, by decide⟩

/-- C5: a fetch failure (the fetcher raising) or an unsuccessful or empty
fetch result records no `PageRecord` for that page — the record list, the
indexed count are unchanged and no links are returned — and, with the
page budget not yet reached, the frontier loop simply continues with the
next queued entry in the same run. -/
theorem C5_page_failure_isolated (fetch : Fetcher) (cfg : Config)
    (st : CrawlerState) (url : String) (depth : Nat)
    (rest : List (String × Nat))
    (hfail : fetch url = .error () ∨
      ∃ r, fetch url = .ok r ∧ ¬(r.success = true ∧ r.markdown ≠ "")) :
    (crawl_page fetch cfg st url depth).1.crawled_data = st.crawled_data ∧
    (crawl_page fetch cfg st url depth).1.indexed_count = st.indexed_count ∧
    (crawl_page fetch cfg st url depth).2 = [] ∧
    (st.visited.length < cfg.max_pages →
      crawl_website_loop fetch cfg ((url, depth) :: rest) st
        = crawl_website_loop fetch cfg rest
            (crawl_page fetch cfg st url depth).1) := by
  obtain ⟨hd1, hd2, hd3⟩ := crawl_page_failure fetch cfg st url depth hfail
  refine ⟨hd1, hd2, hd3, ?_⟩
  intro hb
  by_cases hdep : depth > cfg.max_depth
  · rw [crawl_website_loop_skip fetch cfg url depth rest st (by omega) hdep]
    have hcp : crawl_page fetch cfg st url depth = (st, []) := by
      unfold crawl_page
      rw [if_pos (Or.inl hdep)]
    rw [hcp]
  · have hcp : crawl_page fetch cfg st url depth
        = ((crawl_page fetch cfg st url depth).1, []) := by
      rw [← hd3]
    rw [crawl_website_loop_step fetch cfg url depth rest st
      (crawl_page fetch cfg st url depth).1 [] (by omega) hdep hcp]
    simp only [List.map_nil, List.append_nil, ite_self]

/-- C5 (witness): with a fetcher whose every fetch raises, crawling the
demo start page from the initial state records nothing and the loop moves
on to the rest of the queue. -/
theorem C5_page_failure_witness :
    (crawl_page failing_fetch demo_cfg initialState urlA 0).1.crawled_data
      = initialState.crawled_data ∧
    (crawl_page failing_fetch demo_cfg initialState urlA 0).1.indexed_count
      = initialState.indexed_count ∧
    (crawl_page failing_fetch demo_cfg initialState urlA 0).2 = [] ∧
    (initialState.visited.length < demo_cfg.max_pages →
      crawl_website_loop failing_fetch demo_cfg [(urlA, 0), (urlB, 1)]
          initialState
        = crawl_website_loop failing_fetch demo_cfg [(urlB, 1)]
            (crawl_page failing_fetch demo_cfg initialState urlA 0).1) :=
  C5_page_failure_isolated failing_fetch demo_cfg initialState urlA 0
    [(urlB, 1)] (Or.inl rfl)

end WebsiteCrawler

namespace WebsiteCrawler

/-- C6: link extraction is total over all admitted input shapes and equals
the spec's normalizing adapter `expectedLinks`: absent (falsy) link data
yields the empty sequence; a categorized mapping yields the recognized
entries of `internal` first and then of every other list-valued category
in insertion order; a flat list yields its recognized entries in order;
bare strings are kept, records contribute their `href` field, every other
entry shape is skipped; no input shape is an error. -/
theorem C6_extractor_total (links : PyVal) :
    extract_links_from_result links = expectedLinks links := by
  cases links with
  | pstr s =>
    by_cases h : s = "" <;>
      simp [extract_links_from_result, PyVal.truthy, expectedLinks, h]
  | pnone => simp [extract_links_from_result, PyVal.truthy, expectedLinks]
  | pother b =>
    cases b <;> simp [extract_links_from_result, PyVal.truthy, expectedLinks]
  | plist xs =>
    cases xs with
    | nil => simp [extract_links_from_result, PyVal.truthy, expectedLinks]
    | cons x tl =>
      simp [extract_links_from_result, PyVal.truthy, expectedLinks,
        collectLinks_eq]
  | pdict kvs =>
    cases kvs with
    | nil => simp [extract_links_from_result, PyVal.truthy, expectedLinks]
    | cons kv tl =>
      have hstep1 : ∀ (a : List PyVal) (x : String × PyVal),
          (match x.2 with
           | PyVal.plist ll => if x.1 ≠ "internal" then collectLinks a ll else a
           | _ => a) = a ++ categoryLinks x := by
        intro a x
        cases h2 : x.2 <;> simp [categoryLinks, h2, collectLinks_eq]
        split <;> simp
      have hstep2 : ∀ (a : List PyVal) (x : String × PyVal),
          (match x.2 with
           | PyVal.plist ll =>
             if x.1 ≠ "internal" then a ++ ll.filterMap recognizedEntry else a
           | _ => a) = a ++ categoryLinks x := by
        intro a x
        cases h2 : x.2 <;> simp [categoryLinks, h2]
        split <;> simp
      simp only [extract_links_from_result, PyVal.truthy, expectedLinks]
      rw [foldl_extra categoryLinks _ hstep1, foldl_extra categoryLinks _ hstep2]
      simp only [List.nil_append]
      cases h : (kv :: tl).lookup "internal" with
      | none => simp [h]
      | some v => cases v <;> simp [h, collectLinks_eq]

/-- C8 (counterexample): the maximum depth reached is NOT among the
statistics the run returns.  The dict returned by `crawl_website`
(crawler.py lines 204-209) has exactly the fields `data`, `indexed_count`,
`visited_count`, `urls_visited` — mirrored field for field by
`CrawlResult` — and carries no max-depth field; the max-depth statistic
is only computed inside the `logger.info` call at line 202.  Concretely,
on a one-page site the maximum depth reached is 0 while every numeric
field of the returned record is 1, so no returned component holds the
statistic. -/
theorem C8_max_depth_not_returned_counterexample :
    crawl_website single_fetch demo_cfg =
      { data := [⟨urlA, "only page", "T", 0⟩], indexed_count := 1,
        visited_count := 1, urls_visited := [urlA] } ∧
    max_depth_reached (crawl_website single_fetch demo_cfg).data = 0 ∧
    (crawl_website single_fetch demo_cfg).indexed_count ≠ 0 ∧
    (crawl_website single_fetch demo_cfg).visited_count ≠ 0 := by
  have h1 : crawl_page single_fetch demo_cfg initialState urlA 0 =
      (⟨[urlA], [⟨urlA, "only page", "T", 0⟩], 1, [urlA]⟩, []) := by
    decide
  have hfinal : crawl_website_final single_fetch demo_cfg =
      ⟨[urlA], [⟨urlA, "only page", "T", 0⟩], 1, [urlA]⟩ := by
    rw [crawl_website_final]
    show crawl_website_loop single_fetch demo_cfg [(urlA, 0)] initialState = _
    rw [crawl_website_loop_step single_fetch demo_cfg urlA 0 [] _ _ _
      (by decide) (by decide) h1]
    show crawl_website_loop single_fetch demo_cfg []
      ⟨[urlA], [⟨urlA, "only page", "T", 0⟩], 1, [urlA]⟩ = _
    exact crawl_website_loop_nil _ _ _
  have hres : crawl_website single_fetch demo_cfg =
      { data := [⟨urlA, "only page", "T", 0⟩], indexed_count := 1,
        visited_count := 1, urls_visited := [urlA] } := by
    simp only [crawl_website, hfinal]
    rfl
  rw [hres]
  exact ⟨rfl, by decide, by decide, by decide⟩

/-- C8 (amended): on termination, a crawl run returns all collected
`PageRecord`s together with two statistics: `indexed_count` counts the
returned records and `visited_count` counts the (duplicate-free) visited
URL list.  The maximum depth reached is computed and logged at
termination (crawler.py line 202) but is not part of the returned dict;
it is nevertheless fully determined by the returned `data`: the line-202
statistic bounds every returned record's depth and is itself one of the
recorded depths (or 0 for an empty crawl). -/
theorem C8_terminal_statistics (fetch : Fetcher) (cfg : Config) :
    (crawl_website fetch cfg).data
      = (crawl_website_final fetch cfg).crawled_data ∧
    (crawl_website fetch cfg).indexed_count
      = (crawl_website fetch cfg).data.length ∧
    (crawl_website fetch cfg).visited_count
      = (crawl_website fetch cfg).urls_visited.length ∧
    (crawl_website fetch cfg).urls_visited.Nodup ∧
    ((crawl_website fetch cfg).data.map PageRecord.depth).all
      (fun d => d ≤ max_depth_reached (crawl_website fetch cfg).data) = true ∧
    max_depth_reached (crawl_website fetch cfg).data
      ∈ 0 :: (crawl_website fetch cfg).data.map PageRecord.depth := by
  have hinit : StInv cfg initialState :=
    ⟨List.nodup_nil, Nat.zero_le _, rfl, rfl, Nat.le_refl 0,
      fun r hr => absurd hr (List.not_mem_nil r)⟩
  have hfinal := crawl_website_loop_inv fetch cfg (StInv cfg)
    (fun st url depth h => crawl_page_inv fetch cfg st url depth h)
    cfg.max_pages [(cfg.base_url, 0)] initialState (by omega) hinit
  obtain ⟨hnd, -, -, hidx, -, -⟩ := hfinal
  refine ⟨rfl, hidx, rfl, hnd, ?_, ?_⟩
  · rw [List.all_eq_true]
    intro d hd
    simp only [decide_eq_true_eq]
    unfold max_depth_reached
    have hne : ((crawl_website fetch cfg).data.isEmpty) = false := by
      cases hempty : (crawl_website fetch cfg).data with
      | nil => rw [hempty] at hd; exact absurd hd (List.not_mem_nil d)
      | cons a tl => rfl
    rw [hne]
    simp only [Bool.false_eq_true, if_false]
    exact mem_le_foldl_max _ 0 d hd
  · unfold max_depth_reached
    cases hempty : (crawl_website fetch cfg).data with
    | nil => simp
    | cons a tl =>
      simp only [List.isEmpty_cons, Bool.false_eq_true, if_false]
      exact foldl_max_mem _ 0

end WebsiteCrawler

namespace ChatService

/-- C7 (counterexample): the claim that `delete` removes the session's
on-disk directory for every session id is false on the code: with no
in-memory session for id `"s1"` but an existing on-disk directory for it,
`ChatManager.delete_session` is a no-op and the directory survives. -/
theorem C7_disk_left_counterexample :
    delete_session "s1" ⟨[]⟩ ⟨["s1"]⟩ = (⟨[]⟩, ⟨["s1"]⟩) ∧
    "s1" ∈ (delete_session "s1" ⟨[]⟩ ⟨["s1"]⟩).2.dirs := by
  decide

/-- C7 (amended): when the session id is present in the in-memory session
map, `delete` detaches it and removes its on-disk directory; deleting an
id not in the map — never created or already deleted — is a no-op on both
the map and the disk and raises no error; and deletion is idempotent. -/
theorem C7_delete_amended (sid : String) (st : ChatManagerState)
    (fs : VectorStore.SessionDirs)
    (hnd : st.sessions.Nodup) (hfd : fs.dirs.Nodup) :
    (sid ∈ st.sessions →
      sid ∉ (delete_session sid st fs).1.sessions ∧
      sid ∉ (delete_session sid st fs).2.dirs) ∧
    (sid ∉ st.sessions → delete_session sid st fs = (st, fs)) ∧
    delete_session sid (delete_session sid st fs).1
        (delete_session sid st fs).2
      = delete_session sid st fs := by
  refine ⟨?_, ?_, ?_⟩
  · intro hmem
    unfold delete_session
    rw [if_pos hmem]
    constructor
    · exact hnd.not_mem_erase
    · unfold VectorStore.delete_session_disk
      split
      · exact hfd.not_mem_erase
      next hnotin => exact hnotin
  · intro hnot
    unfold delete_session
    rw [if_neg hnot]
  · by_cases hmem : sid ∈ st.sessions
    · have h1 : delete_session sid st fs
          = (⟨st.sessions.erase sid⟩, VectorStore.delete_session_disk sid fs) := by
        unfold delete_session
        rw [if_pos hmem]
      rw [h1]
      unfold delete_session
      rw [if_neg (by simpa using hnd.not_mem_erase)]
    · have h1 : delete_session sid st fs = (st, fs) := by
        unfold delete_session
        rw [if_neg hmem]
      rw [h1]
      unfold delete_session
      rw [if_neg hmem]

/-- C7 (witness): the amended theorem at a store holding exactly session
`"s"` in memory and on disk. -/
theorem C7_delete_witness :
    ("s" ∈ (⟨["s"]⟩ : ChatManagerState).sessions →
      "s" ∉ (delete_session "s" ⟨["s"]⟩ ⟨["s"]⟩).1.sessions ∧
      "s" ∉ (delete_session "s" ⟨["s"]⟩ ⟨["s"]⟩).2.dirs) ∧
    ("s" ∉ (⟨["s"]⟩ : ChatManagerState).sessions →
      delete_session "s" ⟨["s"]⟩ ⟨["s"]⟩ = (⟨["s"]⟩, ⟨["s"]⟩)) ∧
    delete_session "s" (delete_session "s" ⟨["s"]⟩ ⟨["s"]⟩).1
        (delete_session "s" ⟨["s"]⟩ ⟨["s"]⟩).2
      = delete_session "s" ⟨["s"]⟩ ⟨["s"]⟩ :=
  C7_delete_amended "s" ⟨["s"]⟩ ⟨["s"]⟩ (by decide) (by decide)

end ChatService

namespace VectorStore

/-- C9: `similarity_search` raises `ValueError` — surfaced to the caller —
exactly when the handle has no embedded content: no in-memory store and no
index on disk for the session.  With an in-memory store, or with an index
reconstructible from the session's on-disk path, it returns the
collaborator's search results instead of failing. -/
theorem C9_search_readiness (search_fn : SearchFn) (disk : Disk)
    (st : VSMState) (query : String) (k : Nat) :
    (st.vector_store = none → disk st.session_id = none →
      (similarity_search search_fn disk st query k).1
        = .error ("No vector store found for session " ++ st.session_id)) ∧
    (∀ vs, st.vector_store = some vs →
      (similarity_search search_fn disk st query k).1
        = .ok (search_fn vs query k)) ∧
    (∀ idx, st.vector_store = none → disk st.session_id = some idx →
      (similarity_search search_fn disk st query k).1
        = .ok (search_fn idx query k)) := by
  refine ⟨?_, ?_, ?_⟩
  · intro h1 h2
    unfold similarity_search load_vector_store
    rw [h1, h2]
    rfl
  · intro vs hvs
    unfold similarity_search
    rw [hvs]
  · intro idx h1 h2
    unfold similarity_search load_vector_store
    rw [h1, h2]
    rfl

/-- C9 (witness): with no in-memory store and an empty disk, search fails
with the not-ready error; the same handle with an on-disk index returns
results. -/
theorem C9_search_witness :
    (similarity_search (fun idx _ _ => idx.docs) (fun _ => none)
        ⟨"s", none⟩ "q" 4).1
      = .error ("No vector store found for session " ++ "s") :=
  (C9_search_readiness (fun idx _ _ => idx.docs) (fun _ => none)
    ⟨"s", none⟩ "q" 4).1 rfl rfl

end VectorStore

namespace WebsiteCrawler

/-- C10 (counterexample): normalization is not idempotent on every URL with
a scheme and a host: `"https://a.com/x//"` parses with scheme and host,
but only one trailing slash is dropped per application, so a second
application changes the string again. -/
theorem C10_not_idempotent_counterexample :
    hasSchemeAndHost "https://a.com/x//" = true ∧
    normalize_url (normalize_url "https://a.com/x//")
      ≠ normalize_url "https://a.com/x//" := by
  decide

/-- C10 (amended): `normalize_url` is idempotent on every URL that parses
with a non-empty scheme and host, provided the parsed path carries no `;`
(no params splitting on re-parse) and does not end in a double slash (so
at most one trailing-slash drop is ever needed). -/
theorem C10_normalize_idempotent (u : String) (p : PyUrl.ParseResult)
    (hp : PyUrl.urlparse [] u.data = .ok p)
    (hs : p.scheme ≠ []) (hn : p.netloc ≠ [])
    (hsemi : p.path.contains ';' = false)
    (hss : ¬ (['/', '/'] <:+ p.path)) :
    normalize_url (normalize_url u) = normalize_url u := by
  obtain ⟨f1, f2, f3, f4, f5, f6, f7, f8⟩ := PyUrl.urlparse_ok_facts u.data p hp
  obtain ⟨hval, hlow, hall⟩ := f1 hs
  have hpa0 := f5 hn
  have hnorm1 : normalize_url u =
      if (p.scheme ++ [':', '/', '/'] ++ p.netloc ++ p.path).getLast? = some '/'
          ∧ p.path.length > 1
      then String.mk (p.scheme ++ [':', '/', '/'] ++ p.netloc ++ p.path).dropLast
      else String.mk (p.scheme ++ [':', '/', '/'] ++ p.netloc ++ p.path) := by
    unfold normalize_url
    rw [hp]
  by_cases hcond : (p.scheme ++ [':', '/', '/'] ++ p.netloc ++ p.path).getLast?
      = some '/' ∧ p.path.length > 1
  · -- the trailing slash is dropped once; the result is a fixed point
    obtain ⟨hlast, hlen⟩ := hcond
    have hpne : p.path ≠ [] := by
      intro h
      rw [h] at hlen
      simp at hlen
    have hplast : p.path.getLast? = some '/' := by
      rw [List.getLast?_append] at hlast
      rw [List.getLast?_eq_getLast _ hpne] at hlast ⊢
      simpa using hlast
    obtain ⟨q, hq⟩ := List.getLast?_eq_some_iff.mp hplast
    have hqsub : ∀ x ∈ q, x ∈ p.path := by
      intro x hx
      rw [hq]
      exact List.mem_append_left _ hx
    have hdrop1 : normalize_url u
        = String.mk (p.scheme ++ [':', '/', '/'] ++ p.netloc ++ q) := by
      rw [hnorm1, if_pos ⟨hlast, hlen⟩, hq]
      rw [show p.scheme ++ [':', '/', '/'] ++ p.netloc ++ (q ++ ['/'])
          = (p.scheme ++ [':', '/', '/'] ++ p.netloc ++ q) ++ ['/'] by
        simp [List.append_assoc]]
      rw [List.dropLast_concat]
    have hq0 : q = [] ∨ q.head? = some '/' := by
      by_cases hqe : q = []
      · exact Or.inl hqe
      · right
        rcases hpa0 with hnil | hhead
        · exact absurd hnil hpne
        · rw [hq, List.head?_append] at hhead
          obtain ⟨c, cs, rfl⟩ := List.exists_cons_of_ne_nil hqe
          simpa using hhead
    have hnodrop : ¬((p.scheme ++ [':', '/', '/'] ++ p.netloc ++ q).getLast?
        = some '/' ∧ q.length > 1) := by
      rintro ⟨hl2, hlen2⟩
      have hqne : q ≠ [] := by
        intro h
        rw [h] at hlen2
        simp at hlen2
      have hqlast : q.getLast? = some '/' := by
        rw [List.getLast?_append] at hl2
        rw [List.getLast?_eq_getLast _ hqne] at hl2 ⊢
        simpa using hl2
      obtain ⟨q2, hq2⟩ := List.getLast?_eq_some_iff.mp hqlast
      apply hss
      refine ⟨q2, ?_⟩
      rw [hq, hq2]
      simp
    rw [hdrop1]
    exact normalize_url_reconstruct p.scheme p.netloc q hval hlow hall f2 f3 f4
      hq0
      (PyUrl.contains_false_of_subset hqsub f6)
      (PyUrl.contains_false_of_subset hqsub f7)
      (fun c hc => f8 c (hqsub c hc))
      (PyUrl.contains_false_of_subset hqsub hsemi)
      hnodrop
  · -- no trailing slash dropped; the URL itself is a fixed point
    have hsame : normalize_url u
        = String.mk (p.scheme ++ [':', '/', '/'] ++ p.netloc ++ p.path) := by
      rw [hnorm1, if_neg hcond]
    rw [hsame]
    exact normalize_url_reconstruct p.scheme p.netloc p.path hval hlow hall
      f2 f3 f4 hpa0 f6 f7 f8 hsemi hcond

/-- C10 (witness): the amended idempotence theorem at
`"https://a.com/x/"`, whose first normalization drops the single trailing
slash and whose second application is then a no-op. -/
theorem C10_normalize_idempotent_witness :
    normalize_url (normalize_url "https://a.com/x/")
      = normalize_url "https://a.com/x/" :=
  C10_normalize_idempotent "https://a.com/x/"
    ⟨"https".data, "a.com".data, "/x/".data, [], [], []⟩
    rfl (by decide) (by decide) (by decide) (by decide)

end WebsiteCrawler
